import Mathlib

/-!
# Shallow embedding of the C lexical scanner (src/lexer.c)

The scanner reads characters from a stream (modelled as a `List Char`),
tracks a global line/column pair, and supports `ungetc`-style pushback.
Pushback is modelled by prepending the character to the stream; two ghost
counters (`pbcount`, `maxpb`) record how many characters are currently
pending in the pushback buffer and the maximum that was ever pending.
The ghost counters never influence control flow.

The C column counter `g_col` can become negative (via `unread_char` after
a newline was read), so columns are `Int`.  `g_line` only increases, so
lines are `Nat`.  `EOF` is modelled as `none : Option Char`.

Every C loop is translated as a fuel-indexed structurally recursive
function; at each call site the fuel exceeds the stream length by enough
that it cannot run out, because each iteration consumes at least one
character (the unreachable fuel-0 answers are therefore irrelevant).
-/

namespace Lexer

def MAX_LEXEME_LEN : Nat := 256

def MAX_ID_LEN : Nat := 64

/-- Token kinds, from the `TokenType` enum. -/
inductive TokenType where
  | TOK_EOF
  | TOK_KEYWORD
  | TOK_IDENTIFIER
  | TOK_INT
  | TOK_FLOAT
  | TOK_STRING
  | TOK_CHAR
  | TOK_OPERATOR
  | TOK_SEPARATOR
  | TOK_UNKNOWN
  | TOK_ERROR
deriving DecidableEq, Repr

/-- The `Token` struct: kind, captured lexeme, 1-based start position. -/
structure Token where
  type : TokenType
  lexeme : List Char
  line : Nat
  col : Int
deriving DecidableEq, Repr

/-- Scanner state: the remaining character stream (pushed-back characters
sit at the front), the global `g_line` / `g_col` counters, and two ghost
fields observing the pushback buffer: `pbcount` is the number of
characters currently pending in the buffer (pushed back and not yet
re-read), `maxpb` the maximum value `pbcount` ever attained. -/
structure St where
  stream : List Char
  line : Nat
  col : Int
  pbcount : Nat
  maxpb : Nat
deriving DecidableEq, Repr

/-- Fresh scanner on input `s`: `g_line = 1`, `g_col = 0`, empty pushback. -/
def initSt (s : List Char) : St := ⟨s, 1, 0, 0, 0⟩

/-- Number of characters left to read (including pushed-back ones). -/
def effLen (st : St) : Nat := st.stream.length

/-- C `isspace` in the default locale (ASCII). -/
def isspacec (c : Char) : Bool :=
  decide (c = ' ' ∨ c = '\t' ∨ c = '\n' ∨ c = '\x0b' ∨ c = '\x0c' ∨ c = '\r')

/-- C `isalpha` (ASCII). -/
def isalphac (c : Char) : Bool :=
  decide (('a' ≤ c ∧ c ≤ 'z') ∨ ('A' ≤ c ∧ c ≤ 'Z'))

/-- C `isdigit`. -/
def isdigitc (c : Char) : Bool := decide ('0' ≤ c ∧ c ≤ '9')

/-- C `isalnum`. -/
def isalnumc (c : Char) : Bool := isalphac c || isdigitc c

/-- The character class accepted by the identifier loop: `isalnum(c) || c == '_'`. -/
def idChar (c : Char) : Bool := isalnumc c || decide (c = '_')

/-- Lift a character class to `int` values from `fgetc`, where `EOF` (none)
belongs to no class. -/
def isspaceo : Option Char → Bool
  | some c => isspacec c
  | none => false

def isalphao : Option Char → Bool
  | some c => isalphac c
  | none => false

def isdigito : Option Char → Bool
  | some c => isdigitc c
  | none => false

/-- The `KEYWORDS` table. -/
def KEYWORDS : List (List Char) :=
  ["if", "else", "while", "for", "return", "int", "float",
   "char", "void", "break", "continue", "struct", "const"].map String.toList

/-- `is_keyword`: exact match against the keyword table. -/
def is_keyword (s : List Char) : Bool := KEYWORDS.contains s

/-- `read_char`: take one character (pushback first), updating `g_line`
and `g_col`; returns `none` at end of input.  Reading a character that was
pending in the pushback buffer removes it from the buffer (ghost
`pbcount` decreases). -/
def read_char (st : St) : Option Char × St :=
  match st.stream with
  | [] => (none, st)
  | c :: rest =>
    if c = '\n' then
      (some c, { st with stream := rest, line := st.line + 1, col := 0,
                         pbcount := st.pbcount - 1 })
    else
      (some c, { st with stream := rest, col := st.col + 1,
                         pbcount := st.pbcount - 1 })

/-- `unread_char`: push a character back (no-op on `EOF`).  The column is
rolled back except for a newline; the line is never rolled back.  The
ghost `pbcount` grows by one and `maxpb` records the new pending count. -/
def unread_char (c : Option Char) (st : St) : St :=
  match c with
  | none => st
  | some c =>
    { st with stream := c :: st.stream,
              col := if c = '\n' then st.col else st.col - 1,
              pbcount := st.pbcount + 1,
              maxpb := max st.maxpb (st.pbcount + 1) }

/-- `make_token`: `strncpy` bounds the stored lexeme to
`MAX_LEXEME_LEN - 1` characters and stops copying at the first NUL byte
of the source buffer, so a lexeme is truncated at an embedded `'\x00'`. -/
def make_token (type : TokenType) (lex : List Char) (line : Nat) (col : Int) : Token :=
  ⟨type, (lex.take (MAX_LEXEME_LEN - 1)).takeWhile (fun c => decide (¬ c = '\x00')),
    line, col⟩

/-- The stream as it would look after pushing the current character back:
`pending c st` is the unconsumed input when `c` is in hand. -/
def pending (c : Option Char) (st : St) : List Char :=
  match c with
  | some ch => ch :: st.stream
  | none => st.stream

/-- Inner whitespace loop of `skip_whitespace_and_comments`:
`while (isspace(c)) c = read_char(fp);`. -/
def skipSpacesLoop : Nat → Option Char → St → Option Char × St
  | 0, c, st => (c, st)
  | fuel + 1, c, st =>
    if isspaceo c then
      let r := read_char st
      skipSpacesLoop fuel r.1 r.2
    else (c, st)

/-- Single-line comment loop: `while (ch != '\n' && ch != EOF) ch = read_char(fp);`. -/
def skipLineLoop : Nat → Option Char → St → St
  | 0, _, st => st
  | fuel + 1, ch, st =>
    if ch = some '\n' || ch = none then st
    else
      let r := read_char st
      skipLineLoop fuel r.1 r.2

/-- Block comment loop: scan until `*` followed by `/`, or end of input. -/
def skipBlockLoop : Nat → Option Char → Option Char → St → St
  | 0, _, _, st => st
  | fuel + 1, prev, ch, st =>
    match ch with
    | none => st
    | some c =>
      if prev = some '*' && c = '/' then st
      else
        let r := read_char st
        skipBlockLoop fuel (some c) r.1 r.2

/-- Outer loop of `skip_whitespace_and_comments`.  After a comment is
consumed the whole cycle repeats; when a slash does not open a comment,
both characters are pushed back (follower first, then the slash). -/
def skipWsLoop : Nat → St → St
  | 0, st => st
  | fuel + 1, st =>
    let r1 := read_char st
    let r2 := skipSpacesLoop (effLen r1.2 + 2) r1.1 r1.2
    if r2.1 = some '/' then
      let r3 := read_char r2.2
      if r3.1 = some '/' then
        let r4 := read_char r3.2
        let st4 := skipLineLoop (effLen r4.2 + 2) r4.1 r4.2
        skipWsLoop fuel st4
      else if r3.1 = some '*' then
        let r4 := read_char r3.2
        let st4 := skipBlockLoop (effLen r4.2 + 2) none r4.1 r4.2
        skipWsLoop fuel st4
      else
        unread_char (some '/') (unread_char r3.1 r3.2)
    else
      unread_char r2.1 r2.2

/-- `skip_whitespace_and_comments`. -/
def skip_whitespace_and_comments (st : St) : St :=
  skipWsLoop (effLen st + 1) st

/-- The shared shape of the identifier and digit-run loops: consume
characters of class `p`, appending to `buf` while it has room
(`len < MAX_LEXEME_LEN - 1`); return the captured text, the terminating
character and the state. -/
def runLoop (p : Char → Bool) : Nat → List Char → Option Char → St →
    List Char × Option Char × St
  | 0, buf, c, st => (buf, c, st)
  | fuel + 1, buf, c, st =>
    match c with
    | some ch =>
      if p ch then
        let buf' := if buf.length < MAX_LEXEME_LEN - 1 then buf ++ [ch] else buf
        let r := read_char st
        runLoop p fuel buf' r.1 r.2
      else (buf, c, st)
    | none => (buf, c, st)

/-- `read_identifier_or_keyword`. -/
def read_identifier_or_keyword (st0 : St) : Token × St :=
  let sl := st0.line
  let sc := st0.col + 1
  let r1 := read_char st0
  let r2 := runLoop idChar (effLen r1.2 + 2) [] r1.1 r1.2
  let st1 := unread_char r2.2.1 r2.2.2
  let buf := r2.1
  if ¬ is_keyword buf ∧ buf.length > MAX_ID_LEN then
    (make_token .TOK_IDENTIFIER (buf.take MAX_ID_LEN) sl sc, st1)
  else if is_keyword buf then
    (make_token .TOK_KEYWORD buf sl sc, st1)
  else
    (make_token .TOK_IDENTIFIER buf sl sc, st1)

/-- `read_number`. -/
def read_number (st0 : St) : Token × St :=
  let sl := st0.line
  let sc := st0.col + 1
  let r1 := read_char st0
  let r2 := runLoop isdigitc (effLen r1.2 + 2) [] r1.1 r1.2
  if r2.2.1 = some '.' then
    let buf := if r2.1.length < MAX_LEXEME_LEN - 1 then r2.1 ++ ['.'] else r2.1
    let r3 := read_char r2.2.2
    let r4 := runLoop isdigitc (effLen r3.2 + 2) buf r3.1 r3.2
    let st1 := unread_char r4.2.1 r4.2.2
    (make_token .TOK_FLOAT r4.1 sl sc, st1)
  else
    let st1 := unread_char r2.2.1 r2.2.2
    (make_token .TOK_INT r2.1 sl sc, st1)

/-- Body of the `read_string` scan loop.  Returns a success flag (false on
the unterminated cases), the captured text and the state.  Escape pairs
are captured verbatim; the closing quote is consumed but not captured. -/
def strLoop : Nat → List Char → Option Char → St → Bool × List Char × St
  | 0, buf, _, st => (true, buf, st)
  | fuel + 1, buf, c, st =>
    match c with
    | none => (false, buf, st)
    | some ch =>
      if ch = '"' then (true, buf, st)
      else if ch = '\n' then (false, buf, st)
      else if ch = '\\' then
        let buf1 := if buf.length < MAX_LEXEME_LEN - 2 then buf ++ [ch] else buf
        let r := read_char st
        match r.1 with
        | none => (false, buf1, r.2)
        | some ch2 =>
          let buf2 := if buf1.length < MAX_LEXEME_LEN - 2 then buf1 ++ [ch2] else buf1
          let r2 := read_char r.2
          strLoop fuel buf2 r2.1 r2.2
      else
        let buf1 := if buf.length < MAX_LEXEME_LEN - 1 then buf ++ [ch] else buf
        let r := read_char st
        strLoop fuel buf1 r.1 r.2

/-- `read_string`. -/
def read_string (st0 : St) : Token × St :=
  let sl := st0.line
  let sc := st0.col + 1
  let rq := read_char st0
  let r1 := read_char rq.2
  let r2 := strLoop (effLen r1.2 + 2) [] r1.1 r1.2
  if r2.1 then
    (make_token .TOK_STRING r2.2.1 sl sc, r2.2.2)
  else
    (make_token .TOK_ERROR "Unterminated string literal".toList sl sc, r2.2.2)

/-- `read_char_literal`.  The C buffer-room checks (`len < MAX_LEXEME_LEN - 2`
resp. `- 1`) are always true here because at most two characters are
captured, so the captured text is written directly. -/
def read_char_literal (st0 : St) : Token × St :=
  let sl := st0.line
  let sc := st0.col + 1
  let rq := read_char st0
  let r1 := read_char rq.2
  match r1.1 with
  | none =>
    (make_token .TOK_ERROR "Unterminated char literal".toList sl sc, r1.2)
  | some c =>
    if c = '\n' then
      (make_token .TOK_ERROR "Unterminated char literal".toList sl sc, r1.2)
    else if c = '\\' then
      let r2 := read_char r1.2
      match r2.1 with
      | none =>
        (make_token .TOK_ERROR "Unterminated char literal".toList sl sc, r2.2)
      | some c2 =>
        if c2 = '\n' then
          (make_token .TOK_ERROR "Unterminated char literal".toList sl sc, r2.2)
        else
          let r3 := read_char r2.2
          if r3.1 = some '\'' then
            (make_token .TOK_CHAR ['\\', c2] sl sc, r3.2)
          else
            (make_token .TOK_ERROR "Invalid/unterminated char literal".toList sl sc, r3.2)
    else
      let r3 := read_char r1.2
      if r3.1 = some '\'' then
        (make_token .TOK_CHAR [c] sl sc, r3.2)
      else
        (make_token .TOK_ERROR "Invalid/unterminated char literal".toList sl sc, r3.2)

/-- `is_separator_char`. -/
def is_separator_char (c : Char) : Bool :=
  decide (c = '(' ∨ c = ')' ∨ c = '\x7b' ∨ c = '\x7d' ∨ c = '[' ∨ c = ']' ∨ c = ';' ∨ c = ',')

/-- The fixed two-character operator table. -/
def two_ops : List (List Char) :=
  [['=', '='], ['!', '='], ['<', '='], ['>', '='], ['&', '&'], ['|', '|'],
   ['+', '+'], ['-', '-'], ['+', '='], ['-', '='], ['*', '='], ['/', '='],
   ['%', '='], ['-', '>']]

/-- The single-character operator set tested by `strchr`.  C `strchr`
also matches the searched string's terminating NUL, so the scanner's test
below additionally succeeds on the byte `'\x00'`. -/
def single_op_chars : List Char := "+-*/%<>=!&|^~?:.".toList

/-- `(char)c` for an `int` from `fgetc`: `(char)EOF` is the byte `0xFF`. -/
def charOfOpt : Option Char → Char
  | some c => c
  | none => '\xff'

/-- `read_operator_or_separator`. -/
def read_operator_or_separator (st0 : St) : Token × St :=
  let sl := st0.line
  let sc := st0.col + 1
  let r1 := read_char st0
  match r1.1 with
  | none =>
    let r2 := read_char r1.2
    (make_token .TOK_UNKNOWN ['\xff'] sl sc, r2.2)
  | some c1 =>
    if is_separator_char c1 then
      (make_token .TOK_SEPARATOR [c1] sl sc, r1.2)
    else
      let r2 := read_char r1.2
      let lex2 := [c1, charOfOpt r2.1]
      if two_ops.contains lex2 then
        (make_token .TOK_OPERATOR lex2 sl sc, r2.2)
      else
        let st2 := unread_char r2.1 r2.2
        if single_op_chars.contains c1 || decide (c1 = '\x00') then
          (make_token .TOK_OPERATOR [c1] sl sc, st2)
        else
          (make_token .TOK_UNKNOWN [c1] sl sc, st2)

/-- `next_token`: skip layout, peek one character (pushed back after each
inspection), dispatch on its class. -/
def next_token (st0 : St) : Token × St :=
  let st1 := skip_whitespace_and_comments st0
  let r1 := read_char st1
  if r1.1 = none then
    (make_token .TOK_EOF "EOF".toList r1.2.line r1.2.col, r1.2)
  else
    let st2 := unread_char r1.1 r1.2
    let r2 := read_char st2
    let st3 := unread_char r2.1 r2.2
    if isalphao r2.1 || r2.1 = some '_' then read_identifier_or_keyword st3
    else if isdigito r2.1 then read_number st3
    else if r2.1 = some '"' then read_string st3
    else if r2.1 = some '\'' then read_char_literal st3
    else read_operator_or_separator st3

/-- Repeatedly call `next_token`, collecting tokens up to and including
the first `TOK_EOF` token (fuel-bounded; `length + 1` always suffices). -/
def scanFuel : Nat → St → List Token × St
  | 0, st => ([], st)
  | fuel + 1, st =>
    let r := next_token st
    if r.1.type = .TOK_EOF then ([r.1], r.2)
    else
      let rs := scanFuel fuel r.2
      (r.1 :: rs.1, rs.2)

/-- All tokens of input `s`, from a fresh scanner. -/
def scan_tokens (s : List Char) : List Token := (scanFuel (s.length + 1) (initSt s)).1

/-- The state after one `next_token` call. -/
def nextSt (st : St) : St := (next_token st).2

/-- The state after `n` `next_token` calls. -/
def iterSt : Nat → St → St
  | 0, st => st
  | n + 1, st => iterSt n (nextSt st)

/-- The observable content of a token apart from its position. -/
def tkey (t : Token) : TokenType × List Char := (t.type, t.lexeme)

/-! ## Basic facts about reading and unreading -/

theorem read_char_pending (st : St) :
    pending (read_char st).1 (read_char st).2 = st.stream := by
  cases h : st.stream with
  | nil => simp [read_char, h, pending]
  | cons c rest =>
    by_cases hc : c = '\n' <;> simp [read_char, h, hc, pending]

theorem read_char_fst (st : St) : (read_char st).1 = st.stream.head? := by
  cases h : st.stream with
  | nil => simp [read_char, h]
  | cons c rest =>
    by_cases hc : c = '\n' <;> simp [read_char, h, hc]

theorem read_char_stream (st : St) : (read_char st).2.stream = st.stream.tail := by
  cases h : st.stream with
  | nil => simp [read_char, h]
  | cons c rest =>
    by_cases hc : c = '\n' <;> simp [read_char, h, hc]

theorem read_char_nil {st : St} (h : st.stream = []) : read_char st = (none, st) := by
  simp [read_char, h]

theorem unread_char_stream (c : Option Char) (st : St) :
    (unread_char c st).stream = pending c st := by
  cases c <;> simp [unread_char, pending]

theorem pending_suffix (c : Option Char) (st : St) : st.stream <:+ pending c st := by
  cases c <;> simp [pending]

theorem suffix_pending_of_suffix {l : List Char} {c : Option Char} {st : St}
    (h : l <:+ st.stream) : l <:+ pending c st :=
  h.trans (pending_suffix c st)

theorem read_char_pb_le (st : St) : (read_char st).2.pbcount ≤ st.pbcount := by
  cases h : st.stream with
  | nil => simp [read_char, h]
  | cons c rest => by_cases hc : c = '\n' <;> simp [read_char, h, hc] <;> omega

theorem read_char_maxpb (st : St) : (read_char st).2.maxpb = st.maxpb := by
  cases h : st.stream with
  | nil => simp [read_char, h]
  | cons c rest => by_cases hc : c = '\n' <;> simp [read_char, h, hc]

theorem read_char_some_pb {st : St} {ch : Char} (h : (read_char st).1 = some ch) :
    (read_char st).2.pbcount = st.pbcount - 1 := by
  cases hs : st.stream with
  | nil => rw [read_char_fst, hs] at h; simp at h
  | cons c rest => by_cases hc : c = '\n' <;> simp [read_char, hs, hc]

theorem unread_char_some_pb (c : Char) (st : St) :
    (unread_char (some c) st).pbcount = st.pbcount + 1 := rfl

theorem unread_char_some_maxpb (c : Char) (st : St) :
    (unread_char (some c) st).maxpb = max st.maxpb (st.pbcount + 1) := rfl

theorem unread_char_none (st : St) : unread_char none st = st := rfl

/-! ## The stream only ever shrinks by consumed prefixes (suffix lemmas) -/

theorem skipSpacesLoop_suffix (fuel : Nat) :
    ∀ (c : Option Char) (st : St),
      pending (skipSpacesLoop fuel c st).1 (skipSpacesLoop fuel c st).2 <:+ pending c st := by
  induction fuel with
  | zero => intro c st; simp [skipSpacesLoop]
  | succ fuel ih =>
    intro c st
    cases c with
    | none => simp [skipSpacesLoop, isspaceo]
    | some ch =>
      by_cases hs : isspacec ch
      · simp only [skipSpacesLoop, isspaceo, hs, if_pos]
        refine (ih _ _).trans ?_
        rw [read_char_pending]
        exact pending_suffix _ _
      · simp [skipSpacesLoop, isspaceo, hs]

theorem skipLineLoop_suffix (fuel : Nat) :
    ∀ (ch : Option Char) (st : St), (skipLineLoop fuel ch st).stream <:+ st.stream := by
  induction fuel with
  | zero => intro ch st; simp [skipLineLoop]
  | succ fuel ih =>
    intro ch st
    by_cases h : ch = some '\n' ∨ ch = none
    · rcases h with h | h <;> simp [skipLineLoop, h]
    · push_neg at h
      simp only [skipLineLoop, h.1, h.2, Bool.or_eq_true, decide_eq_true_eq, or_self,
        if_false]
      refine (ih _ _).trans ?_
      rw [read_char_stream]
      exact List.tail_suffix _

theorem skipBlockLoop_suffix (fuel : Nat) :
    ∀ (prev ch : Option Char) (st : St),
      (skipBlockLoop fuel prev ch st).stream <:+ st.stream := by
  induction fuel with
  | zero => intro prev ch st; simp [skipBlockLoop]
  | succ fuel ih =>
    intro prev ch st
    cases ch with
    | none => simp [skipBlockLoop]
    | some c =>
      by_cases h : prev = some '*' ∧ c = '/'
      · simp [skipBlockLoop, h.1, h.2]
      · have : (prev = some '*' && c = '/') = false := by
          rcases Decidable.em (prev = some '*') with hp | hp
          · rcases Decidable.em (c = '/') with hc | hc
            · exact absurd ⟨hp, hc⟩ h
            · simp [hp, hc]
          · simp [hp]
        simp only [skipBlockLoop, this, Bool.false_eq_true, if_false]
        refine (ih _ _ _).trans ?_
        rw [read_char_stream]
        exact List.tail_suffix _

theorem skipWsLoop_suffix (fuel : Nat) :
    ∀ st : St, (skipWsLoop fuel st).stream <:+ st.stream := by
  induction fuel with
  | zero => intro st; simp [skipWsLoop]
  | succ fuel ih =>
    intro st
    have h1 : pending (read_char st).1 (read_char st).2 = st.stream := read_char_pending st
    have h2 := skipSpacesLoop_suffix (effLen (read_char st).2 + 2) (read_char st).1
      (read_char st).2
    rw [h1] at h2
    set r2 := skipSpacesLoop (effLen (read_char st).2 + 2) (read_char st).1 (read_char st).2
      with hr2
    by_cases hsl : r2.1 = some '/'
    · have h3 : pending (read_char r2.2).1 (read_char r2.2).2 = r2.2.stream :=
        read_char_pending r2.2
      by_cases hc1 : (read_char r2.2).1 = some '/'
      · simp only [skipWsLoop, ← hr2, hsl, hc1, if_pos]
        refine (ih _).trans ?_
        refine (skipLineLoop_suffix _ _ _).trans ?_
        rw [read_char_stream]
        refine (List.tail_suffix _).trans ?_
        refine (h3 ▸ pending_suffix _ _ : (read_char r2.2).2.stream <:+ r2.2.stream).trans ?_
        exact (pending_suffix r2.1 r2.2).trans h2
      · by_cases hc2 : (read_char r2.2).1 = some '*'
        · simp only [skipWsLoop, ← hr2, hsl, hc1, hc2, if_pos, if_neg, if_false]
          refine (ih _).trans ?_
          refine (skipBlockLoop_suffix _ _ _ _).trans ?_
          rw [read_char_stream]
          refine (List.tail_suffix _).trans ?_
          refine (h3 ▸ pending_suffix _ _ : (read_char r2.2).2.stream <:+ r2.2.stream).trans ?_
          exact (pending_suffix r2.1 r2.2).trans h2
        · simp only [skipWsLoop, ← hr2, hsl, hc1, hc2, if_neg, if_false, if_true]
          rw [unread_char_stream, pending, unread_char_stream, h3]
          calc ('/' : Char) :: r2.2.stream = pending r2.1 r2.2 := by rw [hsl, pending]
            _ <:+ st.stream := h2
    · simp only [skipWsLoop, ← hr2, hsl, if_neg, if_false]
      rw [unread_char_stream]
      exact h2

theorem skip_whitespace_and_comments_suffix (st : St) :
    (skip_whitespace_and_comments st).stream <:+ st.stream :=
  skipWsLoop_suffix _ st

theorem runLoop_suffix (p : Char → Bool) (fuel : Nat) :
    ∀ (buf : List Char) (c : Option Char) (st : St),
      pending (runLoop p fuel buf c st).2.1 (runLoop p fuel buf c st).2.2 <:+ pending c st := by
  induction fuel with
  | zero => intro buf c st; simp [runLoop]
  | succ fuel ih =>
    intro buf c st
    cases c with
    | none => simp [runLoop]
    | some ch =>
      by_cases hp : p ch = true
      · simp only [runLoop, hp, if_true]
        refine (ih _ _ _).trans ?_
        rw [read_char_pending]
        exact pending_suffix _ _
      · simp [runLoop, hp]

theorem strLoop_suffix (fuel : Nat) :
    ∀ (buf : List Char) (c : Option Char) (st : St),
      (strLoop fuel buf c st).2.2.stream <:+ pending c st := by
  induction fuel with
  | zero => intro buf c st; simpa [strLoop] using pending_suffix c st
  | succ fuel ih =>
    intro buf c st
    cases c with
    | none => simp [strLoop, pending]
    | some ch =>
      by_cases hq : ch = '"'
      · simpa [strLoop, hq] using pending_suffix (some '"') st
      · by_cases hn : ch = '\n'
        · simpa [strLoop, hq, hn] using pending_suffix (some '\n') st
        · by_cases hb : ch = '\\'
          · rcases h2 : (read_char st).1 with _ | ch2
            · have : (read_char st).2.stream <:+ st.stream := by
                rw [read_char_stream]; exact List.tail_suffix _
              simpa [strLoop, hq, hn, hb, h2] using this.trans (pending_suffix _ _)
            · simp only [strLoop, hq, hn, hb, h2, if_neg, if_pos, if_true, if_false]
              refine (ih _ _ _).trans ?_
              rw [read_char_pending, read_char_stream]
              exact (List.tail_suffix _).trans (pending_suffix _ _)
          · simp only [strLoop, hq, hn, hb, if_neg, if_false]
            refine (ih _ _ _).trans ?_
            rw [read_char_pending]
            exact pending_suffix _ _

/-! ## Each sub-scanner only consumes characters past the dispatched one -/

theorem read_identifier_suffix {st : St} {ch : Char} {rest : List Char}
    (h : st.stream = ch :: rest) (hc : idChar ch = true) :
    (read_identifier_or_keyword st).2.stream <:+ rest := by
  have hf : (read_char st).1 = some ch := by rw [read_char_fst, h]; rfl
  have hs : (read_char st).2.stream = rest := by rw [read_char_stream, h]; rfl
  have e : effLen (read_char st).2 + 2 = (effLen (read_char st).2 + 1) + 1 := rfl
  simp only [read_identifier_or_keyword, hf, e]
  have step : runLoop idChar (effLen (read_char st).2 + 1 + 1) [] (some ch) (read_char st).2 =
      runLoop idChar (effLen (read_char st).2 + 1)
        (if ([] : List Char).length < MAX_LEXEME_LEN - 1 then [] ++ [ch] else [])
        (read_char (read_char st).2).1 (read_char (read_char st).2).2 := by
    simp [runLoop, hc]
  have tailsuf :
      pending (read_char (read_char st).2).1 (read_char (read_char st).2).2 = rest := by
    rw [read_char_pending, hs]
  have final := runLoop_suffix idChar (effLen (read_char st).2 + 1)
    (if ([] : List Char).length < MAX_LEXEME_LEN - 1 then [] ++ [ch] else [])
    (read_char (read_char st).2).1 (read_char (read_char st).2).2
  rw [tailsuf] at final
  split_ifs <;> simp only [unread_char_stream, step] <;> exact final

theorem read_number_suffix {st : St} {ch : Char} {rest : List Char}
    (h : st.stream = ch :: rest) (hc : isdigitc ch = true) :
    (read_number st).2.stream <:+ rest := by
  have hf : (read_char st).1 = some ch := by rw [read_char_fst, h]; rfl
  have hs : (read_char st).2.stream = rest := by rw [read_char_stream, h]; rfl
  have e : effLen (read_char st).2 + 2 = (effLen (read_char st).2 + 1) + 1 := rfl
  simp only [read_number, hf, e]
  have step : runLoop isdigitc (effLen (read_char st).2 + 1 + 1) [] (some ch) (read_char st).2 =
      runLoop isdigitc (effLen (read_char st).2 + 1)
        (if ([] : List Char).length < MAX_LEXEME_LEN - 1 then [] ++ [ch] else [])
        (read_char (read_char st).2).1 (read_char (read_char st).2).2 := by
    simp [runLoop, hc]
  have tailsuf :
      pending (read_char (read_char st).2).1 (read_char (read_char st).2).2 = rest := by
    rw [read_char_pending, hs]
  have final := runLoop_suffix isdigitc (effLen (read_char st).2 + 1)
    (if ([] : List Char).length < MAX_LEXEME_LEN - 1 then [] ++ [ch] else [])
    (read_char (read_char st).2).1 (read_char (read_char st).2).2
  rw [tailsuf] at final
  rw [step]
  set r2 := runLoop isdigitc (effLen (read_char st).2 + 1)
    (if ([] : List Char).length < MAX_LEXEME_LEN - 1 then [] ++ [ch] else [])
    (read_char (read_char st).2).1 (read_char (read_char st).2).2 with hr2
  by_cases hdot : r2.2.1 = some '.'
  · simp only [hdot, if_pos, if_true, unread_char_stream]
    refine (runLoop_suffix _ _ _ _ _).trans ?_
    rw [read_char_pending]
    exact ((pending_suffix _ _).trans final)
  · simp only [hdot, if_neg, if_false, unread_char_stream]
    exact final

theorem read_string_suffix {st : St} {ch : Char} {rest : List Char}
    (h : st.stream = ch :: rest) :
    (read_string st).2.stream <:+ rest := by
  have hs : (read_char st).2.stream = rest := by rw [read_char_stream, h]; rfl
  have hp : pending (read_char (read_char st).2).1 (read_char (read_char st).2).2 = rest := by
    rw [read_char_pending, hs]
  have final := strLoop_suffix (effLen (read_char (read_char st).2).2 + 2) []
    (read_char (read_char st).2).1 (read_char (read_char st).2).2
  rw [hp] at final
  simp only [read_string]
  split_ifs <;> exact final

theorem read_char_literal_suffix {st : St} {ch : Char} {rest : List Char}
    (h : st.stream = ch :: rest) :
    (read_char_literal st).2.stream <:+ rest := by
  have hs : (read_char st).2.stream = rest := by rw [read_char_stream, h]; rfl
  have h1 : (read_char (read_char st).2).2.stream <:+ rest := by
    rw [read_char_stream, hs]; exact List.tail_suffix _
  have h2 : (read_char (read_char (read_char st).2).2).2.stream <:+ rest := by
    rw [read_char_stream]; exact (List.tail_suffix _).trans h1
  have h3 : (read_char (read_char (read_char (read_char st).2).2).2).2.stream <:+ rest := by
    rw [read_char_stream]; exact (List.tail_suffix _).trans h2
  simp only [read_char_literal]
  split
  · exact h1
  · rename_i c heq
    by_cases hn : c = '\n'
    · rw [if_pos hn]; exact h1
    · rw [if_neg hn]
      by_cases hb : c = '\\'
      · rw [if_pos hb]
        split
        · exact h2
        · rename_i c2 heq2
          by_cases hn2 : c2 = '\n'
          · rw [if_pos hn2]; exact h2
          · rw [if_neg hn2]
            by_cases hq : (read_char (read_char (read_char (read_char st).2).2).2).1 = some '\''
            · rw [if_pos hq]; exact h3
            · rw [if_neg hq]; exact h3
      · rw [if_neg hb]
        by_cases hq : (read_char (read_char (read_char st).2).2).1 = some '\''
        · rw [if_pos hq]; exact h2
        · rw [if_neg hq]; exact h2

theorem read_operator_suffix {st : St} {ch : Char} {rest : List Char}
    (h : st.stream = ch :: rest) :
    (read_operator_or_separator st).2.stream <:+ rest := by
  have hf : (read_char st).1 = some ch := by rw [read_char_fst, h]; rfl
  have hs : (read_char st).2.stream = rest := by rw [read_char_stream, h]; rfl
  have hp : pending (read_char (read_char st).2).1 (read_char (read_char st).2).2 = rest := by
    rw [read_char_pending, hs]
  simp only [read_operator_or_separator, hf]
  split_ifs
  · rw [hs]
  · rw [read_char_stream, hs]; exact List.tail_suffix _
  · rw [unread_char_stream, hp]
  · rw [unread_char_stream, hp]

/-! ## Sub-scanners never emit the end-of-input token -/

theorem make_token_type (ty : TokenType) (l : List Char) (li : Nat) (c : Int) :
    (make_token ty l li c).type = ty := rfl

theorem read_identifier_type (st : St) :
    (read_identifier_or_keyword st).1.type ≠ .TOK_EOF := by
  simp only [read_identifier_or_keyword]
  split_ifs <;> simp [make_token]

theorem read_number_type (st : St) : (read_number st).1.type ≠ .TOK_EOF := by
  simp only [read_number]
  split_ifs <;> simp [make_token]

theorem read_string_type (st : St) : (read_string st).1.type ≠ .TOK_EOF := by
  simp only [read_string]
  split_ifs <;> simp [make_token]

theorem read_char_literal_type (st : St) : (read_char_literal st).1.type ≠ .TOK_EOF := by
  simp only [read_char_literal]
  repeat' split
  all_goals simp [make_token]

theorem read_operator_type (st : St) : (read_operator_or_separator st).1.type ≠ .TOK_EOF := by
  simp only [read_operator_or_separator]
  repeat' split
  all_goals simp [make_token]

/-! ## Characterizing one `next_token` step -/

theorem next_token_eq_empty {st : St} (h : (skip_whitespace_and_comments st).stream = []) :
    next_token st =
      (make_token .TOK_EOF "EOF".toList (skip_whitespace_and_comments st).line
        (skip_whitespace_and_comments st).col, skip_whitespace_and_comments st) := by
  have hr : read_char (skip_whitespace_and_comments st) =
      (none, skip_whitespace_and_comments st) := read_char_nil h
  simp [next_token, hr]

theorem next_token_eq_dispatch {st : St} {ch : Char} {tail : List Char}
    (h : (skip_whitespace_and_comments st).stream = ch :: tail) :
    ∃ st3 : St, st3.stream = ch :: tail ∧
      st3.pbcount = (skip_whitespace_and_comments st).pbcount - 1 + 1 ∧
      st3.maxpb = max (skip_whitespace_and_comments st).maxpb
        ((skip_whitespace_and_comments st).pbcount - 1 + 1) ∧
      next_token st =
        (if isalphac ch || decide (ch = '_') then read_identifier_or_keyword st3
         else if isdigitc ch then read_number st3
         else if ch = '"' then read_string st3
         else if ch = '\'' then read_char_literal st3
         else read_operator_or_separator st3) := by
  have hf : (read_char (skip_whitespace_and_comments st)).1 = some ch := by
    rw [read_char_fst, h]; rfl
  have hp1 : (unread_char (read_char (skip_whitespace_and_comments st)).1
      (read_char (skip_whitespace_and_comments st)).2).stream = ch :: tail := by
    rw [unread_char_stream, read_char_pending, h]
  have hf2 : (read_char (unread_char (read_char (skip_whitespace_and_comments st)).1
      (read_char (skip_whitespace_and_comments st)).2)).1 = some ch := by
    rw [read_char_fst, hp1]; rfl
  have hp2 : (unread_char
      (read_char (unread_char (read_char (skip_whitespace_and_comments st)).1
        (read_char (skip_whitespace_and_comments st)).2)).1
      (read_char (unread_char (read_char (skip_whitespace_and_comments st)).1
        (read_char (skip_whitespace_and_comments st)).2)).2).stream = ch :: tail := by
    rw [unread_char_stream, read_char_pending, hp1]
  rw [hf] at hf2 hp2
  refine ⟨_, hp2, ?_, ?_, ?_⟩
  · rw [hf2, unread_char_some_pb, read_char_some_pb hf2, unread_char_some_pb,
      read_char_some_pb hf]
    omega
  · rw [hf2, unread_char_some_maxpb, read_char_maxpb, read_char_some_pb hf2,
      unread_char_some_maxpb, unread_char_some_pb, read_char_maxpb,
      read_char_some_pb hf]
    omega
  · simp [next_token, hf, hf2, isalphao, isdigito]

theorem next_token_main (st : St) :
    ((next_token st).1.type = .TOK_EOF ∧ (next_token st).2.stream = []) ∨
    ((next_token st).1.type ≠ .TOK_EOF ∧ effLen (next_token st).2 < effLen st ∧
      (next_token st).2.stream <:+ st.stream) := by
  have hsuf : (skip_whitespace_and_comments st).stream <:+ st.stream :=
    skip_whitespace_and_comments_suffix st
  cases hst1 : (skip_whitespace_and_comments st).stream with
  | nil =>
    left
    rw [next_token_eq_empty hst1]
    exact ⟨rfl, hst1⟩
  | cons ch tail =>
    right
    rw [hst1] at hsuf
    have hlen : tail.length + 1 ≤ effLen st := by
      have := hsuf.length_le
      simpa [effLen] using this
    obtain ⟨st3, hst3, _, _, heq⟩ := next_token_eq_dispatch hst1
    rw [heq]
    have hfin : ∀ res : Token × St, res.2.stream <:+ tail → res.1.type ≠ .TOK_EOF →
        (res.1.type ≠ .TOK_EOF ∧ effLen res.2 < effLen st ∧ res.2.stream <:+ st.stream) := by
      intro res hsufr hty
      refine ⟨hty, ?_, ?_⟩
      · have := hsufr.length_le
        simp only [effLen] at *
        omega
      · exact hsufr.trans ((List.suffix_cons ch tail).trans hsuf)
    by_cases ha : isalphac ch || decide (ch = '_')
    · rw [if_pos ha]
      have hid : idChar ch = true := by
        rcases Bool.or_eq_true _ _ |>.mp ha with hx | hx
        · simp [idChar, isalnumc, hx]
        · simp only [decide_eq_true_eq] at hx
          simp [idChar, hx]
      exact hfin _ (read_identifier_suffix hst3 hid) (read_identifier_type st3)
    · rw [if_neg (by simpa using ha)]
      by_cases hd : isdigitc ch
      · rw [if_pos hd]
        exact hfin _ (read_number_suffix hst3 hd) (read_number_type st3)
      · rw [if_neg (by simpa using hd)]
        by_cases hq : ch = '"'
        · rw [if_pos hq]
          exact hfin _ (read_string_suffix hst3) (read_string_type st3)
        · rw [if_neg hq]
          by_cases hq2 : ch = '\''
          · rw [if_pos hq2]
            exact hfin _ (read_char_literal_suffix hst3) (read_char_literal_type st3)
          · rw [if_neg hq2]
            exact hfin _ (read_operator_suffix hst3) (read_operator_type st3)

theorem next_token_eof_stream {st : St} (h : (next_token st).1.type = .TOK_EOF) :
    (next_token st).2.stream = [] := by
  rcases next_token_main st with ⟨_, h2⟩ | ⟨hne, _⟩
  · exact h2
  · exact absurd h hne

theorem next_token_strict {st : St} (h : (next_token st).1.type ≠ .TOK_EOF) :
    effLen (next_token st).2 < effLen st := by
  rcases next_token_main st with ⟨h1, _⟩ | ⟨_, h2, _⟩
  · exact absurd h1 h
  · exact h2

theorem next_token_suffix (st : St) : (next_token st).2.stream <:+ st.stream := by
  rcases next_token_main st with ⟨_, h2⟩ | ⟨_, _, h3⟩
  · rw [h2]; exact List.nil_suffix
  · exact h3

theorem next_token_of_empty {st : St} (h : st.stream = []) :
    next_token st = (make_token .TOK_EOF "EOF".toList st.line st.col, st) := by
  have hz : effLen st = 0 := by simp [effLen, h]
  have h1 : skip_whitespace_and_comments st = st := by
    rw [skip_whitespace_and_comments, hz]
    simp [skipWsLoop, read_char_nil h, skipSpacesLoop, isspaceo, unread_char]
  rw [next_token_eq_empty (by rw [h1]; exact h), h1]

/-! ## Scanning runs to completion -/

theorem scanFuel_complete : ∀ (fuel : Nat) (st : St), effLen st < fuel →
    (scanFuel fuel st).2.stream = [] ∧
    ∃ tk : Token, (scanFuel fuel st).1.getLast? = some tk ∧ tk.type = .TOK_EOF := by
  intro fuel
  induction fuel with
  | zero => intro st h; omega
  | succ fuel ih =>
    intro st h
    by_cases he : (next_token st).1.type = .TOK_EOF
    · refine ⟨?_, (next_token st).1, ?_, he⟩ <;>
        simp [scanFuel, he, next_token_eof_stream he]
    · have hlt : effLen (next_token st).2 < fuel := by
        have := next_token_strict he
        omega
      obtain ⟨hstream, tk, hlast, hty⟩ := ih (next_token st).2 hlt
      have hne : (scanFuel fuel (next_token st).2).1 ≠ [] := by
        intro hnil
        rw [hnil] at hlast
        simp at hlast
      refine ⟨by simp [scanFuel, he, hstream], tk, ?_, hty⟩
      simp only [scanFuel, he, if_neg, if_false]
      cases hl : (scanFuel fuel (next_token st).2).1 with
      | nil => exact absurd hl hne
      | cons b l =>
        rw [hl] at hlast
        simpa using hlast

theorem eof_within_aux : ∀ (k : Nat) (st : St), effLen st ≤ k →
    ∃ n : Nat, n ≤ effLen st ∧ (next_token (iterSt n st)).1.type = .TOK_EOF := by
  intro k
  induction k with
  | zero =>
    intro st h
    have hs : st.stream = [] := by
      have : st.stream.length = 0 := by simpa [effLen] using h
      simpa using this
    refine ⟨0, by omega, ?_⟩
    rw [iterSt, next_token_of_empty hs]
    rfl
  | succ k ih =>
    intro st h
    by_cases he : (next_token st).1.type = .TOK_EOF
    · exact ⟨0, by omega, by rw [iterSt]; exact he⟩
    · have hlt := next_token_strict he
      obtain ⟨n, hn, hty⟩ := ih (nextSt st) (by simp only [nextSt]; omega)
      refine ⟨n + 1, ?_, ?_⟩
      · simp only [nextSt] at hn; omega
      · simpa [iterSt] using hty

theorem iterSt_of_empty {st : St} (h : st.stream = []) : ∀ n : Nat, iterSt n st = st := by
  intro n
  induction n with
  | zero => rfl
  | succ n ih =>
    have hstep : nextSt st = st := by rw [nextSt, next_token_of_empty h]
    rw [iterSt, hstep, ih]

/-- The skipper restores a slash and its non-comment follower verbatim. -/
theorem skip_ws_slash_restore {st : St} {c : Char} {rest : List Char}
    (h : st.stream = '/' :: c :: rest) (h1 : c ≠ '/') (h2 : c ≠ '*') :
    (skip_whitespace_and_comments st).stream = '/' :: c :: rest := by
  have hf : (read_char st).1 = some '/' := by rw [read_char_fst, h]; rfl
  have hs : (read_char st).2.stream = c :: rest := by rw [read_char_stream, h]; rfl
  have hf3 : (read_char (read_char st).2).1 = some c := by rw [read_char_fst, hs]; rfl
  have e2 : effLen (read_char st).2 + 2 = (effLen (read_char st).2 + 1) + 1 := rfl
  have hskip : skipSpacesLoop (effLen (read_char st).2 + 2) (read_char st).1 (read_char st).2 =
      ((read_char st).1, (read_char st).2) := by
    rw [e2, hf]
    simp [skipSpacesLoop, isspaceo, isspacec]
  have hc3 : (read_char (read_char st).2).1 ≠ some '/' := by rw [hf3]; simpa using h1
  have hc4 : (read_char (read_char st).2).1 ≠ some '*' := by rw [hf3]; simpa using h2
  rw [hf] at hskip
  rw [skip_whitespace_and_comments]
  simp only [skipWsLoop, hf, hskip, if_true]
  rw [if_neg hc3, if_neg hc4, unread_char_stream]
  show '/' :: (unread_char (read_char (read_char st).2).1 (read_char (read_char st).2).2).stream
      = '/' :: c :: rest
  rw [unread_char_stream, read_char_pending, hs]

/-- Spec-side position: the 1-based line number of the character at index
`i` of an input, obtained by counting the newlines strictly before it. -/
def specLine (s : List Char) (i : Nat) : Nat := (s.take i).count '\n' + 1

/-- C1 (code_bug exhibit).  On the input "ab\ncd" the identifier run "ab" is
ended by a newline, which `read_identifier_or_keyword` pushes back after
`read_char` has already advanced `g_line`; `unread_char` never rolls the
line counter back (its own comment claims newlines are never unread), and
re-reading the newline increments `g_line` a second time.  The token "cd"
therefore carries line 3, although its first character, the 'c' at index 3,
lies on line 2 of the input — contradicting the claim that every token
carries the 1-based position of its first character. -/
theorem token_position_newline_bug :
    ((scan_tokens "ab\ncd".toList).map fun t => (t.type, t.lexeme, t.line, t.col)) =
      [(.TOK_IDENTIFIER, "ab".toList, 1, (1 : Int)),
       (.TOK_IDENTIFIER, "cd".toList, 3, 1),
       (.TOK_EOF, "EOF".toList, 3, 2)] ∧
    "ab\ncd".toList[3]? = some 'c' ∧ specLine "ab\ncd".toList 3 = 2 := by
  decide

/-- C3: the scanner consumes the input exactly.  (i) Each `next_token` call
turns the unconsumed stream into one of its suffixes, so the characters
attributed to the token plus the skipped layout are precisely the removed
prefix — no character is lost, duplicated or reordered; (ii) a full scan
ends with an empty stream, so the per-token consumed prefixes partition
the entire input; (iii) a slash whose follower opens no comment is
restored together with that follower, in reverse order, so the next token
begins at the slash. -/
theorem scan_consumes_input_exactly :
    (∀ st : St, (next_token st).2.stream <:+ st.stream) ∧
    (∀ s : List Char, (scanFuel (s.length + 1) (initSt s)).2.stream = []) ∧
    (∀ (st : St) (c : Char) (rest : List Char),
      st.stream = '/' :: c :: rest → c ≠ '/' → c ≠ '*' →
      (skip_whitespace_and_comments st).stream = '/' :: c :: rest) := by
  refine ⟨next_token_suffix, ?_, fun st c rest h h1 h2 => skip_ws_slash_restore h h1 h2⟩
  intro s
  exact (scanFuel_complete (s.length + 1) (initSt s) (by simp [effLen, initSt])).1

/-- Witness for C3 at a concrete input: the skipper leaves "/a" intact. -/
theorem scan_consumes_input_exactly_witness :
    (skip_whitespace_and_comments (initSt ('/' :: 'a' :: []))).stream = '/' :: 'a' :: [] :=
  scan_consumes_input_exactly.2.2 (initSt ('/' :: 'a' :: [])) 'a' []
    rfl (by decide) (by decide)

/-- C5: every `next_token` call is a total function of the state (calls
always terminate), at most `effLen st` calls are needed before a call
returns an `EndOfInput` token, and the collected token sequence of a full
scan is finite and ends with the `EndOfInput` token. -/
theorem scan_terminates_with_eof (st : St) :
    (∃ n : Nat, n ≤ effLen st ∧ (next_token (iterSt n st)).1.type = .TOK_EOF) ∧
    ∃ tk : Token, (scanFuel (effLen st + 1) st).1.getLast? = some tk ∧
      tk.type = .TOK_EOF :=
  ⟨eof_within_aux (effLen st) st le_rfl, (scanFuel_complete _ _ (by omega)).2⟩

/-- C9: end of input is absorbing — once `next_token` has returned an
`EndOfInput` token, the stream is empty and every later call returns an
`EndOfInput` token again. -/
theorem eof_absorbing (st : St) (n : Nat) (h : (next_token st).1.type = .TOK_EOF) :
    (next_token (iterSt n (nextSt st))).1.type = .TOK_EOF := by
  have hs : (nextSt st).stream = [] := next_token_eof_stream h
  rw [iterSt_of_empty hs n, next_token_of_empty hs]
  rfl

/-- Witness for C9: after the empty input returns EOF, the third following
call still returns EOF. -/
theorem eof_absorbing_witness :
    (next_token (iterSt 3 (nextSt (initSt [])))).1.type = .TOK_EOF :=
  eof_absorbing (initSt []) 3 (by decide)

/-- C10 (amended): whatever character follows the opening quote (even a
single-quote) is consumed as the literal's content, never matched as a
closing quote — on the three-quote input the literal is one single-quote,
and on the two-quote input the scanner reports an error — and a `TOK_CHAR`
token carries a nonempty lexeme whenever the content byte is not NUL; for
the NUL content byte `strncpy` copies nothing and the emitted CharLiteral
token's text is empty (see the counterexample). -/
theorem char_literal_never_empty :
    (∀ (st : St) (c : Char) (rest : List Char), st.stream = '\'' :: c :: rest →
      (read_char_literal st).2.stream <:+ rest ∧
      (¬ c = '\x00' → (read_char_literal st).1.type = .TOK_CHAR →
        (read_char_literal st).1.lexeme ≠ [])) ∧
    ((next_token (initSt ['\'', '\'', '\''])).1.type = .TOK_CHAR ∧
      (next_token (initSt ['\'', '\'', '\''])).1.lexeme = ['\'']) ∧
    (next_token (initSt ['\'', '\''])).1.type = .TOK_ERROR := by
  refine ⟨?_, by decide, by decide⟩
  intro st c rest h
  have hs1 : (read_char st).2.stream = c :: rest := by rw [read_char_stream, h]; rfl
  have hf2 : (read_char (read_char st).2).1 = some c := by rw [read_char_fst, hs1]; rfl
  have hs2 : (read_char (read_char st).2).2.stream = rest := by
    rw [read_char_stream, hs1]; rfl
  have hs3 : (read_char (read_char (read_char st).2).2).2.stream <:+ rest := by
    rw [read_char_stream, hs2]; exact List.tail_suffix _
  have hs4 : (read_char (read_char (read_char (read_char st).2).2).2).2.stream
      <:+ rest := by
    rw [read_char_stream]
    exact (List.tail_suffix _).trans hs3
  simp only [read_char_literal, hf2]
  by_cases hn : c = '\n'
  · rw [if_pos hn]
    refine ⟨?_, fun _ ht => by simp [make_token] at ht⟩
    rw [hs2]
  · rw [if_neg hn]
    by_cases hb : c = '\\'
    · rw [if_pos hb]
      cases hm2 : (read_char (read_char (read_char st).2).2).1 with
      | none => exact ⟨hs3, fun _ ht => by simp [make_token] at ht⟩
      | some c2 =>
        dsimp only
        by_cases hn2 : c2 = '\n'
        · rw [if_pos hn2]
          exact ⟨hs3, fun _ ht => by simp [make_token] at ht⟩
        · rw [if_neg hn2]
          by_cases hq : (read_char (read_char (read_char (read_char st).2).2).2).1
              = some '\''
          · rw [if_pos hq]
            refine ⟨hs4, ?_⟩
            intro _ _
            simp [make_token, MAX_LEXEME_LEN]
          · rw [if_neg hq]
            exact ⟨hs4, fun _ ht => by simp [make_token] at ht⟩
    · rw [if_neg hb]
      by_cases hq : (read_char (read_char (read_char st).2).2).1 = some '\''
      · rw [if_pos hq]
        refine ⟨hs3, ?_⟩
        intro hcz _
        simp [make_token, MAX_LEXEME_LEN, List.takeWhile_cons, hcz]
      · rw [if_neg hq]
        exact ⟨hs3, fun _ ht => by simp [make_token] at ht⟩

/-- Witness for C10: the general clause applied at the input "'a'": both
quote and content are consumed and the CharLiteral text is nonempty. -/
theorem char_literal_never_empty_witness :
    (read_char_literal (initSt ['\'', 'a', '\''])).2.stream <:+ ['\''] ∧
    (read_char_literal (initSt ['\'', 'a', '\''])).1.lexeme ≠ [] := by
  have h := char_literal_never_empty.1 (initSt ['\'', 'a', '\'']) 'a' ['\''] rfl
  exact ⟨h.1, h.2 (by decide) (by decide)⟩

/-- C10 counterexample: a character literal whose content byte is NUL is
returned as a CharLiteral token with empty text — `strncpy` in
`make_token` stops at the NUL, so the scanner emits a token
indistinguishable from an empty literal. -/
theorem char_literal_nul_counterexample :
    (next_token (initSt ['\'', '\x00', '\''])).1.type = .TOK_CHAR ∧
    (next_token (initSt ['\'', '\x00', '\''])).1.lexeme = [] := by decide

/-- C2 counterexample: while scanning the single token of the input "/a",
the skipper pushes back the follower 'a' and then the slash without any
intervening read, so two characters are simultaneously pending in the
pushback buffer — `maxpb` ends at 2, refuting "at most one character may be
unread at a time". -/
theorem pushback_two_pending_counterexample :
    (next_token (initSt ('/' :: 'a' :: []))).2.maxpb = 2 := by decide

/-- C4 counterexample: the global `g_line`/`g_col` counters are never reset,
so a second complete scan of the same input "a" in the same process starts
from the counters the first scan left behind and reports a different
column for its first token; the two token sequences differ. -/
theorem rescan_positions_differ :
    (scanFuel 2 (initSt ['a'])).2.line = 1 ∧ (scanFuel 2 (initSt ['a'])).2.col = 1 ∧
    (scanFuel 2 (initSt ['a'])).1 ≠ (scanFuel 2 ⟨['a'], 1, 1, 0, 0⟩).1 := by decide

/-! ## Operator/separator scanner (C7) -/

theorem takeWhile_of_all {α : Type} {p : α → Bool} :
    ∀ {l : List α}, (∀ c ∈ l, p c = true) → l.takeWhile p = l := by
  intro l
  induction l with
  | nil => intro _; rfl
  | cons a t ih =>
    intro hall
    rw [List.takeWhile_cons_of_pos (hall a (by simp)),
      ih (fun c hc => hall c (by simp [hc]))]

theorem make_token_lexeme_short {l : List Char} (hl : l.length ≤ MAX_LEXEME_LEN - 1)
    (hz : ∀ c ∈ l, ¬ c = '\x00')
    (ty : TokenType) (li : Nat) (co : Int) : (make_token ty l li co).lexeme = l := by
  simp only [make_token, List.take_of_length_le hl]
  exact takeWhile_of_all (fun c hc => decide_eq_true (hz c hc))

theorem is_separator_ne_nul {c : Char} (h : is_separator_char c = true) : ¬ c = '\x00' := by
  intro he
  subst he
  exact absurd h (by decide)

theorem two_ops_ne_nul {c c2 : Char} (h : two_ops.contains [c, c2] = true) :
    ¬ c = '\x00' ∧ ¬ c2 = '\x00' := by
  have hm : [c, c2] ∈ two_ops := List.elem_iff.mp h
  simp only [two_ops, List.mem_cons, List.not_mem_nil, or_false, List.cons.injEq,
    and_true] at hm
  rcases hm with h|h|h|h|h|h|h|h|h|h|h|h|h|h <;>
    exact ⟨by rw [h.1]; decide, by rw [h.2]; decide⟩

theorem single_op_ne_nul {c : Char} (h : single_op_chars.contains c = true) :
    ¬ c = '\x00' := by
  intro he
  subst he
  exact absurd h (by decide)

theorem read_char_none_stream {st : St} (h : (read_char st).1 = none) :
    (read_char st).2.stream = [] := by
  cases hs : st.stream with
  | nil => simp [read_char_nil hs, hs]
  | cons c rest => rw [read_char_fst, hs] at h; simp at h

theorem two_ops_not_xff (c : Char) : two_ops.contains [c, '\xff'] = false := by
  rw [Bool.eq_false_iff]
  intro hcon
  have hm : [c, '\xff'] ∈ two_ops := List.elem_iff.mp hcon
  simp [two_ops] at hm

/-- C7 (amended): separators win immediately as one-character tokens;
otherwise two characters are read and matched greedily against the
two-character operator table; on failure the second character is pushed
back and the first alone is tested with `strchr` against the
single-character operator string.  `strchr` also matches that string's
terminating NUL, so the byte `'\x00'` comes back as an Operator token
whose text is empty (`strncpy` copies nothing); every other unmatched
character falls through to an Unknown token that is consumed so scanning
continues.  The concrete sequences for "<=x", "<x" and "@x" follow. -/
theorem operator_separator_spec :
    (∀ (st : St) (c : Char) (rest : List Char), st.stream = c :: rest →
      ((is_separator_char c = true →
          (read_operator_or_separator st).1.type = .TOK_SEPARATOR ∧
          (read_operator_or_separator st).1.lexeme = [c] ∧
          (read_operator_or_separator st).2.stream = rest) ∧
       (∀ (c2 : Char) (r2 : List Char), rest = c2 :: r2 → is_separator_char c = false →
          two_ops.contains [c, c2] = true →
          (read_operator_or_separator st).1.type = .TOK_OPERATOR ∧
          (read_operator_or_separator st).1.lexeme = [c, c2] ∧
          (read_operator_or_separator st).2.stream = r2) ∧
       (is_separator_char c = false →
          (∀ (c2 : Char) (r2 : List Char), rest = c2 :: r2 →
            two_ops.contains [c, c2] = false) →
          (read_operator_or_separator st).2.stream = rest ∧
          (single_op_chars.contains c = true →
            (read_operator_or_separator st).1.type = .TOK_OPERATOR ∧
            (read_operator_or_separator st).1.lexeme = [c]) ∧
          (c = '\x00' →
            (read_operator_or_separator st).1.type = .TOK_OPERATOR ∧
            (read_operator_or_separator st).1.lexeme = []) ∧
          (single_op_chars.contains c = false → ¬ c = '\x00' →
            (read_operator_or_separator st).1.type = .TOK_UNKNOWN ∧
            (read_operator_or_separator st).1.lexeme = [c])))) ∧
    (scan_tokens "<=x".toList).map tkey =
      [(.TOK_OPERATOR, "<=".toList), (.TOK_IDENTIFIER, ['x']), (.TOK_EOF, "EOF".toList)] ∧
    (scan_tokens "<x".toList).map tkey =
      [(.TOK_OPERATOR, ['<']), (.TOK_IDENTIFIER, ['x']), (.TOK_EOF, "EOF".toList)] ∧
    (scan_tokens "@x".toList).map tkey =
      [(.TOK_UNKNOWN, ['@']), (.TOK_IDENTIFIER, ['x']), (.TOK_EOF, "EOF".toList)] := by
  refine ⟨?_, by decide, by decide, by decide⟩
  intro st c rest h
  have hf : (read_char st).1 = some c := by rw [read_char_fst, h]; rfl
  have hs : (read_char st).2.stream = rest := by rw [read_char_stream, h]; rfl
  have hp : pending (read_char (read_char st).2).1 (read_char (read_char st).2).2 = rest := by
    rw [read_char_pending, hs]
  refine ⟨?_, ?_, ?_⟩
  · intro hsep
    simp only [read_operator_or_separator, hf, hsep, if_true]
    refine ⟨rfl, make_token_lexeme_short (by simp [MAX_LEXEME_LEN]) ?_ _ _ _, hs⟩
    intro x hx
    rw [List.mem_singleton] at hx
    subst hx
    exact is_separator_ne_nul hsep
  · intro c2 r2 hr hsep hcont
    have hf2 : (read_char (read_char st).2).1 = some c2 := by
      rw [read_char_fst, hs, hr]; rfl
    have hs2 : (read_char (read_char st).2).2.stream = r2 := by
      rw [read_char_stream, hs, hr]; rfl
    simp only [read_operator_or_separator, hf, hsep, hf2, charOfOpt, hcont, if_true,
      Bool.false_eq_true, if_false]
    refine ⟨rfl, make_token_lexeme_short (by simp [MAX_LEXEME_LEN]) ?_ _ _ _, hs2⟩
    intro x hx
    simp only [List.mem_cons, List.not_mem_nil, or_false] at hx
    rcases hx with rfl | rfl
    · exact (two_ops_ne_nul hcont).1
    · exact (two_ops_ne_nul hcont).2
  · intro hsep hno
    have hcont : two_ops.contains [c, charOfOpt (read_char (read_char st).2).1] = false := by
      cases hrest : rest with
      | nil =>
        have : (read_char (read_char st).2).1 = none := by
          rw [read_char_fst, hs, hrest]; rfl
        rw [this, charOfOpt]
        exact two_ops_not_xff c
      | cons c2 r2 =>
        have : (read_char (read_char st).2).1 = some c2 := by
          rw [read_char_fst, hs, hrest]; rfl
        rw [this, charOfOpt]
        exact hno c2 r2 hrest
    simp only [read_operator_or_separator, hf, hsep, hcont, Bool.false_eq_true, if_false]
    refine ⟨by split_ifs <;> rw [unread_char_stream, hp], ?_, ?_, ?_⟩
    · intro hso
      simp only [hso, Bool.true_or, if_true]
      refine ⟨rfl, make_token_lexeme_short (by simp [MAX_LEXEME_LEN]) ?_ _ _ _⟩
      intro x hx
      rw [List.mem_singleton] at hx
      subst hx
      exact single_op_ne_nul hso
    · intro hnul
      subst hnul
      rw [if_pos (show (single_op_chars.contains '\x00' || decide ('\x00' = '\x00'))
          = true by decide)]
      exact ⟨rfl, rfl⟩
    · intro hso hnn
      rw [if_neg (show ¬ (single_op_chars.contains c || decide (c = '\x00')) = true by
        rw [hso, decide_eq_false hnn]
        simp)]
      refine ⟨rfl, make_token_lexeme_short (by simp [MAX_LEXEME_LEN]) ?_ _ _ _⟩
      intro x hx
      rw [List.mem_singleton] at hx
      subst hx
      exact hnn

/-- Witness for C7: the general clause at the separator input "(x". -/
theorem operator_separator_spec_witness :
    (read_operator_or_separator (initSt ['(', 'x'])).1.type = .TOK_SEPARATOR ∧
    (read_operator_or_separator (initSt ['(', 'x'])).1.lexeme = ['('] ∧
    (read_operator_or_separator (initSt ['(', 'x'])).2.stream = ['x'] :=
  (operator_separator_spec.1 (initSt ['(', 'x']) '(' ['x'] rfl).1 (by decide)

/-- C7 counterexample: the NUL byte is no separator, opens no two-character
operator and is not one of the listed single-character operator symbols,
yet the scanner classifies it as an Operator token — `strchr` matches the
terminating NUL of the operator-set string — and `strncpy` then copies an
empty lexeme; the claim demands an Unknown token carrying the byte. -/
theorem nul_operator_counterexample :
    single_op_chars.contains '\x00' = false ∧
    (next_token (initSt ['\x00'])).1.type = .TOK_OPERATOR ∧
    (next_token (initSt ['\x00'])).1.lexeme = [] := by decide

/-! ## Identifier/keyword scanner (C8) -/

theorem runLoop_spec (p : Char → Bool) :
    ∀ (fuel : Nat) (s buf : List Char) (c : Option Char) (st : St),
      pending c st = s → (c = none → st.stream = []) → s.length < fuel →
      (runLoop p fuel buf c st).1 =
          buf ++ (s.takeWhile p).take (MAX_LEXEME_LEN - 1 - buf.length) ∧
      pending (runLoop p fuel buf c st).2.1 (runLoop p fuel buf c st).2.2 =
          s.dropWhile p ∧
      ((runLoop p fuel buf c st).2.1 = none → (runLoop p fuel buf c st).2.2.stream = []) := by
  intro fuel
  induction fuel with
  | zero => intro s buf c st _ _ h3; omega
  | succ fuel ih =>
    intro s buf c st h1 h2 h3
    cases c with
    | none =>
      have hs : st.stream = [] := h2 rfl
      have hsnil : s = [] := by rw [← h1]; simp [pending, hs]
      subst hsnil
      simp [runLoop, pending, hs]
    | some ch =>
      have hcons : s = ch :: st.stream := by rw [← h1]; rfl
      subst hcons
      by_cases hp : p ch = true
      · simp only [runLoop, hp, if_true, List.takeWhile_cons_of_pos hp,
          List.dropWhile_cons_of_pos hp]
        have hnext := ih st.stream
          (if buf.length < MAX_LEXEME_LEN - 1 then buf ++ [ch] else buf)
          (read_char st).1 (read_char st).2 (read_char_pending st)
          (fun hn => read_char_none_stream hn) (by simp at h3 ⊢; omega)
        refine ⟨?_, hnext.2.1, hnext.2.2⟩
        rw [hnext.1]
        by_cases hlen : buf.length < MAX_LEXEME_LEN - 1
        · have e : MAX_LEXEME_LEN - 1 - buf.length =
              (MAX_LEXEME_LEN - 1 - (buf.length + 1)) + 1 := by
            simp only [MAX_LEXEME_LEN] at *
            omega
          rw [if_pos hlen, e, List.take_succ_cons]
          simp
        · have e : MAX_LEXEME_LEN - 1 - buf.length = 0 := by
            simp only [MAX_LEXEME_LEN] at *
            omega
          rw [if_neg hlen, e]
          simp
      · simp [runLoop, hp, pending, List.takeWhile_cons_of_neg, List.dropWhile_cons_of_neg]

theorem keyword_length {s : List Char} (h : is_keyword s = true) : s.length ≤ 8 := by
  have hm : s ∈ KEYWORDS := List.elem_iff.mp h
  simp only [KEYWORDS, List.map, List.mem_cons, List.not_mem_nil, or_false] at hm
  rcases hm with h | h | h | h | h | h | h | h | h | h | h | h | h <;> subst h <;> decide

/-- The captured identifier text and final stream of
`read_identifier_or_keyword`, for any state whose stream is nonempty. -/
theorem read_identifier_capture {st : St} {c : Char} {rest : List Char}
    (h : st.stream = c :: rest) :
    (read_identifier_or_keyword st).2.stream = st.stream.dropWhile idChar ∧
    (read_identifier_or_keyword st).1 =
      (if ¬ is_keyword ((st.stream.takeWhile idChar).take (MAX_LEXEME_LEN - 1)) = true ∧
          ((st.stream.takeWhile idChar).take (MAX_LEXEME_LEN - 1)).length > MAX_ID_LEN then
        make_token .TOK_IDENTIFIER
          (((st.stream.takeWhile idChar).take (MAX_LEXEME_LEN - 1)).take MAX_ID_LEN)
          st.line (st.col + 1)
      else if is_keyword ((st.stream.takeWhile idChar).take (MAX_LEXEME_LEN - 1)) = true then
        make_token .TOK_KEYWORD ((st.stream.takeWhile idChar).take (MAX_LEXEME_LEN - 1))
          st.line (st.col + 1)
      else
        make_token .TOK_IDENTIFIER ((st.stream.takeWhile idChar).take (MAX_LEXEME_LEN - 1))
          st.line (st.col + 1)) := by
  have hlen : st.stream.length < effLen (read_char st).2 + 2 := by
    rw [effLen, read_char_stream, h]
    simp
  have hrun := runLoop_spec idChar (effLen (read_char st).2 + 2) st.stream []
    (read_char st).1 (read_char st).2 (read_char_pending st)
    (fun hn => read_char_none_stream hn) hlen
  rw [List.nil_append] at hrun
  simp only [List.length_nil, Nat.sub_zero] at hrun
  constructor
  · simp only [read_identifier_or_keyword]
    split_ifs <;> rw [unread_char_stream] <;> exact hrun.2.1
  · simp only [read_identifier_or_keyword, hrun.1]
    split_ifs <;> rfl

/-- C8: the identifier/keyword scanner consumes the entire maximal run of
letters, digits and underscores; a non-keyword run longer than 64
characters yields an Identifier token whose text is exactly the first 64
characters of the run; runs of at most 64 characters are returned
untruncated, as a Keyword exactly when the run is in the keyword table. -/
theorem identifier_truncation_spec :
    ∀ (st : St) (c : Char) (rest : List Char), st.stream = c :: rest →
      isalphac c = true ∨ c = '_' →
      (read_identifier_or_keyword st).2.stream = st.stream.dropWhile idChar ∧
      (is_keyword (st.stream.takeWhile idChar) = false →
        64 < (st.stream.takeWhile idChar).length →
        (read_identifier_or_keyword st).1.type = .TOK_IDENTIFIER ∧
        (read_identifier_or_keyword st).1.lexeme = (st.stream.takeWhile idChar).take 64 ∧
        (read_identifier_or_keyword st).1.lexeme.length = 64) ∧
      ((st.stream.takeWhile idChar).length ≤ 64 →
        (read_identifier_or_keyword st).1.lexeme = st.stream.takeWhile idChar ∧
        (read_identifier_or_keyword st).1.type =
          (if is_keyword (st.stream.takeWhile idChar) = true then .TOK_KEYWORD
           else .TOK_IDENTIFIER)) := by
  intro st c rest h _
  obtain ⟨hstream, htok⟩ := read_identifier_capture h
  refine ⟨hstream, ?_, ?_⟩
  · intro hnk hlong
    have hbufkw :
        is_keyword ((st.stream.takeWhile idChar).take (MAX_LEXEME_LEN - 1)) = false := by
      by_cases hle : (st.stream.takeWhile idChar).length ≤ MAX_LEXEME_LEN - 1
      · rw [List.take_of_length_le hle]
        exact hnk
      · rw [Bool.eq_false_iff]
        intro hkw
        have h8 := keyword_length hkw
        rw [List.length_take] at h8
        simp only [MAX_LEXEME_LEN] at h8 hle
        omega
    have hbuflen :
        MAX_ID_LEN < ((st.stream.takeWhile idChar).take (MAX_LEXEME_LEN - 1)).length := by
      rw [List.length_take]
      simp only [MAX_LEXEME_LEN, MAX_ID_LEN]
      omega
    have htake : ((st.stream.takeWhile idChar).take (MAX_LEXEME_LEN - 1)).take MAX_ID_LEN =
        (st.stream.takeWhile idChar).take 64 := by
      rw [List.take_take]
      norm_num [MAX_ID_LEN, MAX_LEXEME_LEN]
    have hlex : (make_token TokenType.TOK_IDENTIFIER
        (((st.stream.takeWhile idChar).take (MAX_LEXEME_LEN - 1)).take MAX_ID_LEN)
        st.line (st.col + 1)).lexeme = (st.stream.takeWhile idChar).take 64 := by
      rw [make_token_lexeme_short, htake]
      · rw [List.length_take]
        simp only [MAX_ID_LEN, MAX_LEXEME_LEN]
        omega
      · intro x hx
        have hx2 := List.mem_of_mem_take (List.mem_of_mem_take hx)
        have hpp := List.mem_takeWhile_imp hx2
        intro he
        subst he
        exact absurd hpp (by decide)
    rw [htok, if_pos ⟨by simp [hbufkw], hbuflen⟩]
    refine ⟨rfl, hlex, ?_⟩
    rw [hlex, List.length_take]
    omega
  · intro hshort
    have hbuf : (st.stream.takeWhile idChar).take (MAX_LEXEME_LEN - 1) =
        st.stream.takeWhile idChar := by
      apply List.take_of_length_le
      simp only [MAX_LEXEME_LEN]
      omega
    have hlexrun : ∀ ty : TokenType,
        (make_token ty (st.stream.takeWhile idChar) st.line (st.col + 1)).lexeme =
          st.stream.takeWhile idChar := by
      intro ty
      apply make_token_lexeme_short
      · simp only [MAX_LEXEME_LEN]
        omega
      · intro x hx
        have hpp := List.mem_takeWhile_imp hx
        intro he
        subst he
        exact absurd hpp (by decide)
    rw [htok, hbuf]
    by_cases hkw : is_keyword (st.stream.takeWhile idChar) = true
    · have hcond : ¬ (¬ is_keyword (st.stream.takeWhile idChar) = true ∧
          (st.stream.takeWhile idChar).length > MAX_ID_LEN) := fun hcc => hcc.1 hkw
      rw [if_neg hcond, if_pos hkw]
      exact ⟨hlexrun _, by rw [if_pos hkw]; rfl⟩
    · have hcond : ¬ (¬ is_keyword (st.stream.takeWhile idChar) = true ∧
          (st.stream.takeWhile idChar).length > MAX_ID_LEN) := by
        intro hcc
        have h2 := hcc.2
        simp only [MAX_ID_LEN] at h2
        omega
      rw [if_neg hcond, if_neg hkw]
      exact ⟨hlexrun _, by rw [if_neg hkw]; rfl⟩

/-- Witness for C8: a 100-character identifier comes back with exactly 64
characters of text. -/
theorem identifier_truncation_spec_witness :
    (read_identifier_or_keyword (initSt (List.replicate 100 'q'))).1.lexeme.length = 64 :=
  ((identifier_truncation_spec (initSt (List.replicate 100 'q')) 'q'
      (List.replicate 99 'q') (by decide) (by decide)).2.1 (by decide) (by decide)).2.2

/-! ## String literal scanner (C6)

Spec-side definitions, written from the words of spec §4.4 for the
refinement comparison: scanning the content that follows the opening
quote, failure occurs exactly on a raw unescaped newline, on end of input,
or on end of input immediately after a backslash; on success the content
up to the closing unescaped quote is the captured text (escape pairs
verbatim) and the closing quote is consumed. -/

/-- Does the string literal whose post-quote source is `s` fail (per the
spec's three conditions)? -/
def specStringError : List Char → Bool
  | [] => true
  | c :: r =>
    if c = '"' then false
    else if c = '\n' then true
    else if c = '\\' then
      match r with
      | [] => true
      | _ :: r2 => specStringError r2
    else specStringError r

/-- The raw captured text of a successful string literal (escape pairs
verbatim, closing quote excluded). -/
def specStringText : List Char → List Char
  | [] => []
  | c :: r =>
    if c = '"' then []
    else if c = '\\' then
      match r with
      | [] => []
      | c2 :: r2 => c :: c2 :: specStringText r2
    else c :: specStringText r

/-- The source that remains after the closing quote of a successful string
literal. -/
def specStringRest : List Char → List Char
  | [] => []
  | c :: r =>
    if c = '"' then r
    else if c = '\\' then
      match r with
      | [] => []
      | _ :: r2 => specStringRest r2
    else specStringRest r

theorem specStringError_quote (r : List Char) : specStringError ('"' :: r) = false := by
  cases r <;> rfl

theorem specStringError_newline (r : List Char) : specStringError ('\n' :: r) = true := by
  cases r <;> rfl

theorem specStringError_esc_nil : specStringError ['\\'] = true := rfl

theorem specStringError_esc (c2 : Char) (r : List Char) :
    specStringError ('\\' :: c2 :: r) = specStringError r := rfl

theorem specStringError_other {c : Char} (hq : c ≠ '"') (hn : c ≠ '\n') (hb : c ≠ '\\')
    (r : List Char) : specStringError (c :: r) = specStringError r := by
  cases r <;> simp [specStringError, hq, hn, hb]

theorem specStringText_quote (r : List Char) : specStringText ('"' :: r) = [] := by
  cases r <;> rfl

theorem specStringText_esc (c2 : Char) (r : List Char) :
    specStringText ('\\' :: c2 :: r) = '\\' :: c2 :: specStringText r := rfl

theorem specStringText_other {c : Char} (hq : c ≠ '"') (hb : c ≠ '\\') (r : List Char) :
    specStringText (c :: r) = c :: specStringText r := by
  cases r <;> simp [specStringText, hq, hb]

theorem specStringRest_quote (r : List Char) : specStringRest ('"' :: r) = r := by
  cases r <;> rfl

theorem specStringRest_esc (c2 : Char) (r : List Char) :
    specStringRest ('\\' :: c2 :: r) = specStringRest r := rfl

theorem specStringRest_other {c : Char} (hq : c ≠ '"') (hb : c ≠ '\\') (r : List Char) :
    specStringRest (c :: r) = specStringRest r := by
  cases r <;> simp [specStringRest, hq, hb]

theorem strLoop_spec :
    ∀ (fuel : Nat) (s buf : List Char) (c : Option Char) (st : St),
      pending c st = s → (c = none → st.stream = []) → s.length < fuel →
      ((strLoop fuel buf c st).1 = !specStringError s) ∧
      (specStringError s = false →
        (strLoop fuel buf c st).2.2.stream = specStringRest s ∧
        (buf.length + (specStringText s).length ≤ MAX_LEXEME_LEN - 2 →
          (strLoop fuel buf c st).2.1 = buf ++ specStringText s)) := by
  intro fuel
  induction fuel with
  | zero => intro s buf c st _ _ h3; omega
  | succ fuel ih =>
    intro s buf c st h1 h2 h3
    cases c with
    | none =>
      have hs : st.stream = [] := h2 rfl
      have hsnil : s = [] := by rw [← h1]; simp [pending, hs]
      subst hsnil
      simp [strLoop, specStringError]
    | some ch =>
      have hcons : s = ch :: st.stream := by rw [← h1]; rfl
      subst hcons
      by_cases hq : ch = '"'
      · subst hq
        refine ⟨by rw [specStringError_quote]; simp [strLoop], fun _ => ?_⟩
        refine ⟨by rw [specStringRest_quote]; simp [strLoop], fun _ => ?_⟩
        rw [specStringText_quote]
        simp [strLoop]
      · by_cases hn : ch = '\n'
        · subst hn
          refine ⟨by rw [specStringError_newline]; simp [strLoop], fun hcontra => ?_⟩
          rw [specStringError_newline] at hcontra
          exact absurd hcontra (by simp)
        · by_cases hb : ch = '\\'
          · subst hb
            rcases hr : (read_char st).1 with _ | ch2
            · have hse : st.stream = [] := by
                have hh := read_char_fst st
                rw [hr] at hh
                exact List.head?_eq_none_iff.mp hh.symm
              rw [hse]
              refine ⟨by rw [specStringError_esc_nil]; simp [strLoop, hr], fun hcontra => ?_⟩
              rw [specStringError_esc_nil] at hcontra
              exact absurd hcontra (by simp)
            · have hst : st.stream = ch2 :: (read_char st).2.stream := by
                have hh := read_char_pending st
                rw [hr] at hh
                exact hh.symm
              have hlen2 : (read_char st).2.stream.length < fuel := by
                have he : st.stream.length = (read_char st).2.stream.length + 1 := by
                  rw [hst]; rfl
                simp only [List.length_cons] at h3
                omega
              rw [hst, specStringError_esc, specStringText_esc, specStringRest_esc]
              constructor
              · have hkey := (ih _ buf (read_char (read_char st).2).1
                  (read_char (read_char st).2).2 (read_char_pending (read_char st).2)
                  (fun hx => read_char_none_stream hx) hlen2).1
                simpa [strLoop, hr] using
                  (ih _ (if (if buf.length < MAX_LEXEME_LEN - 2 then buf ++ ['\\'] else
                      buf).length < MAX_LEXEME_LEN - 2 then
                      (if buf.length < MAX_LEXEME_LEN - 2 then buf ++ ['\\'] else buf) ++ [ch2]
                    else (if buf.length < MAX_LEXEME_LEN - 2 then buf ++ ['\\'] else buf))
                    (read_char (read_char st).2).1 (read_char (read_char st).2).2
                    (read_char_pending (read_char st).2)
                    (fun hx => read_char_none_stream hx) hlen2).1
              · intro herr
                constructor
                · simpa [strLoop, hr] using
                    ((ih _ (if (if buf.length < MAX_LEXEME_LEN - 2 then buf ++ ['\\'] else
                        buf).length < MAX_LEXEME_LEN - 2 then
                        (if buf.length < MAX_LEXEME_LEN - 2 then buf ++ ['\\'] else buf) ++ [ch2]
                      else (if buf.length < MAX_LEXEME_LEN - 2 then buf ++ ['\\'] else buf))
                      (read_char (read_char st).2).1 (read_char (read_char st).2).2
                      (read_char_pending (read_char st).2)
                      (fun hx => read_char_none_stream hx) hlen2).2 herr).1
                · intro hle
                  simp only [List.length_cons] at hle
                  have hb1 : buf.length < MAX_LEXEME_LEN - 2 := by
                    simp only [MAX_LEXEME_LEN] at hle ⊢
                    omega
                  have hb2 : buf.length + 1 < MAX_LEXEME_LEN - 2 := by
                    simp only [MAX_LEXEME_LEN] at hle ⊢
                    omega
                  have hbound : ((buf ++ ['\\']) ++ [ch2]).length +
                      (specStringText (read_char st).2.stream).length ≤
                        MAX_LEXEME_LEN - 2 := by
                    simp only [MAX_LEXEME_LEN, List.length_append, List.length_cons,
                      List.length_nil] at hle ⊢
                    omega
                  have hkey := ((ih _ ((buf ++ ['\\']) ++ [ch2])
                    (read_char (read_char st).2).1 (read_char (read_char st).2).2
                    (read_char_pending (read_char st).2)
                    (fun hx => read_char_none_stream hx) hlen2).2 herr).2 hbound
                  simpa [strLoop, hr, if_pos hb1, if_pos hb2] using hkey
          · have hlen2 : st.stream.length < fuel := by
              simp only [List.length_cons] at h3
              omega
            rw [specStringError_other hq hn hb, specStringText_other hq hb,
              specStringRest_other hq hb]
            constructor
            · simpa [strLoop, if_neg hq, if_neg hn, if_neg hb] using
                (ih _ (if buf.length < MAX_LEXEME_LEN - 1 then buf ++ [ch] else buf)
                  (read_char st).1 (read_char st).2 (read_char_pending st)
                  (fun hx => read_char_none_stream hx) hlen2).1
            · intro herr
              constructor
              · simpa [strLoop, if_neg hq, if_neg hn, if_neg hb] using
                  ((ih _ (if buf.length < MAX_LEXEME_LEN - 1 then buf ++ [ch] else buf)
                    (read_char st).1 (read_char st).2 (read_char_pending st)
                    (fun hx => read_char_none_stream hx) hlen2).2 herr).1
              · intro hle
                simp only [List.length_cons] at hle
                have hb1 : buf.length < MAX_LEXEME_LEN - 1 := by
                  simp only [MAX_LEXEME_LEN] at hle ⊢
                  omega
                have hbound : (buf ++ [ch]).length +
                    (specStringText st.stream).length ≤ MAX_LEXEME_LEN - 2 := by
                  simp only [MAX_LEXEME_LEN, List.length_append, List.length_cons,
                    List.length_nil] at hle ⊢
                  omega
                have hkey := ((ih _ (buf ++ [ch]) (read_char st).1 (read_char st).2
                  (read_char_pending st)
                  (fun hx => read_char_none_stream hx) hlen2).2 herr).2 hbound
                simpa [strLoop, if_neg hq, if_neg hn, if_neg hb, if_pos hb1] using hkey

set_option maxRecDepth 16000 in
/-- C6 counterexample: on a string literal whose content is 256 characters
the call succeeds but captures only the first 255 characters, so the
token text is not the raw source contents as the claim states. -/
theorem string_truncation_counterexample :
    (read_string (initSt ('"' :: (List.replicate 256 'a' ++ ['"'])))).1.type = .TOK_STRING ∧
    (read_string (initSt ('"' :: (List.replicate 256 'a' ++ ['"'])))).1.lexeme ≠
      List.replicate 256 'a' ∧
    (read_string (initSt ('"' :: (List.replicate 256 'a' ++ ['"'])))).1.lexeme.length
      = 255 := by
  decide

/-- C6 (amended): for an input whose next lexeme begins with a double
quote, `read_string` returns an Error token (with the fixed message and
the position recorded for the opening quote) exactly when the spec's three
failure conditions occur — a raw unescaped newline, end of input before
the closing quote, or end of input right after a backslash; otherwise it
returns a StringLiteral token, the closing quote is consumed and excluded,
and the text is the raw source contents with escape pairs captured
verbatim up to the first NUL byte (`strncpy` stops copying there)
whenever that content fits the 254-character capture bound (longer
contents are further silently truncated).  The call itself is a total
function (it never fails). -/
theorem string_literal_spec :
    ∀ (st : St) (rest : List Char), st.stream = '"' :: rest →
      ((read_string st).1.type = .TOK_ERROR ↔ specStringError rest = true) ∧
      (specStringError rest = true →
        (read_string st).1.lexeme = "Unterminated string literal".toList ∧
        (read_string st).1.line = st.line ∧ (read_string st).1.col = st.col + 1) ∧
      (specStringError rest = false →
        (read_string st).1.type = .TOK_STRING ∧
        (read_string st).1.line = st.line ∧ (read_string st).1.col = st.col + 1 ∧
        (read_string st).2.stream = specStringRest rest ∧
        ((specStringText rest).length ≤ MAX_LEXEME_LEN - 2 →
          (read_string st).1.lexeme
            = (specStringText rest).takeWhile (fun c => decide (¬ c = '\x00')))) := by
  intro st rest h
  have hs : (read_char st).2.stream = rest := by rw [read_char_stream, h]; rfl
  have hlen : rest.length < effLen (read_char (read_char st).2).2 + 2 := by
    rw [effLen, read_char_stream, hs]
    cases rest <;> simp
  have hloop := strLoop_spec (effLen (read_char (read_char st).2).2 + 2) rest []
    (read_char (read_char st).2).1 (read_char (read_char st).2).2
    (by rw [read_char_pending, hs]) (fun hx => read_char_none_stream hx) hlen
  rw [List.nil_append] at hloop
  simp only [List.length_nil, Nat.zero_add] at hloop
  refine ⟨?_, ?_, ?_⟩
  · cases hx : specStringError rest with
    | false =>
      have hflag : (strLoop (effLen (read_char (read_char st).2).2 + 2) []
          (read_char (read_char st).2).1 (read_char (read_char st).2).2).1 = true := by
        rw [hloop.1, hx]; rfl
      simp [read_string, hflag, make_token]
    | true =>
      have hflag : (strLoop (effLen (read_char (read_char st).2).2 + 2) []
          (read_char (read_char st).2).1 (read_char (read_char st).2).2).1 = false := by
        rw [hloop.1, hx]; rfl
      simp [read_string, hflag, make_token]
  · intro herr
    have hflag : (strLoop (effLen (read_char (read_char st).2).2 + 2) []
        (read_char (read_char st).2).1 (read_char (read_char st).2).2).1 = false := by
      rw [hloop.1, herr]; rfl
    simp only [read_string, hflag, Bool.false_eq_true, if_false]
    exact ⟨make_token_lexeme_short (by decide) (by decide) _ _ _, rfl, rfl⟩
  · intro herr
    have hflag : (strLoop (effLen (read_char (read_char st).2).2 + 2) []
        (read_char (read_char st).2).1 (read_char (read_char st).2).2).1 = true := by
      rw [hloop.1, herr]; rfl
    have hsucc := hloop.2 herr
    simp only [read_string, hflag, if_true]
    refine ⟨rfl, rfl, rfl, hsucc.1, ?_⟩
    intro hle
    simp only [make_token, hsucc.2 hle]
    rw [List.take_of_length_le (show (specStringText rest).length ≤ MAX_LEXEME_LEN - 1 by
      simp only [MAX_LEXEME_LEN] at hle ⊢
      omega)]

/-- Witness for C6: the literal "hi" followed by " x" scans to a
StringLiteral with text `hi`. -/
theorem string_literal_spec_witness :
    (read_string (initSt ('"' :: ['h', 'i', '"', ' ', 'x']))).1.type = .TOK_STRING ∧
    (read_string (initSt ('"' :: ['h', 'i', '"', ' ', 'x']))).1.lexeme = ['h', 'i'] := by
  have h := (string_literal_spec (initSt ('"' :: ['h', 'i', '"', ' ', 'x']))
      ['h', 'i', '"', ' ', 'x'] rfl).2.2 (by decide)
  refine ⟨h.1, ?_⟩
  rw [h.2.2.2.2 (by decide)]
  decide

/-! ## Pushback depth bounds (C2) -/

theorem skipSpacesLoop_pb (fuel : Nat) : ∀ (c : Option Char) (st : St),
    (skipSpacesLoop fuel c st).2.pbcount ≤ st.pbcount ∧
    (skipSpacesLoop fuel c st).2.maxpb = st.maxpb := by
  induction fuel with
  | zero => intro c st; simp [skipSpacesLoop]
  | succ fuel ih =>
    intro c st
    by_cases hs : isspaceo c = true
    · simp only [skipSpacesLoop, hs, if_true]
      exact ⟨le_trans (ih _ _).1 (read_char_pb_le st),
        by rw [(ih _ _).2, read_char_maxpb]⟩
    · simp [skipSpacesLoop, hs]

theorem skipSpacesLoop_some_pb (fuel : Nat) : ∀ (c : Option Char) (st : St),
    (∀ ch, c = some ch → st.pbcount = 0) →
    ∀ ch, (skipSpacesLoop fuel c st).1 = some ch →
      (skipSpacesLoop fuel c st).2.pbcount = 0 := by
  induction fuel with
  | zero =>
    intro c st hP ch h
    simp only [skipSpacesLoop] at h ⊢
    exact hP ch h
  | succ fuel ih =>
    intro c st hP ch h
    by_cases hs : isspaceo c = true
    · simp only [skipSpacesLoop, hs, if_true] at h ⊢
      refine ih _ _ ?_ ch h
      intro ch2 h2
      rw [read_char_some_pb h2]
      have hc0 : st.pbcount = 0 := by
        cases c with
        | none => simp [isspaceo] at hs
        | some cc => exact hP cc rfl
      omega
    · simp only [skipSpacesLoop, hs, Bool.false_eq_true, if_false] at h ⊢
      exact hP ch h

theorem skipLineLoop_pb (fuel : Nat) : ∀ (ch : Option Char) (st : St),
    (skipLineLoop fuel ch st).pbcount ≤ st.pbcount ∧
    (skipLineLoop fuel ch st).maxpb = st.maxpb := by
  induction fuel with
  | zero => intro ch st; simp [skipLineLoop]
  | succ fuel ih =>
    intro ch st
    by_cases hc : (ch = some '\n' || ch = none) = true
    · simp [skipLineLoop, hc]
    · simp only [skipLineLoop, hc, Bool.false_eq_true, if_false]
      exact ⟨le_trans (ih _ _).1 (read_char_pb_le st),
        by rw [(ih _ _).2, read_char_maxpb]⟩

theorem skipBlockLoop_pb (fuel : Nat) : ∀ (prev ch : Option Char) (st : St),
    (skipBlockLoop fuel prev ch st).pbcount ≤ st.pbcount ∧
    (skipBlockLoop fuel prev ch st).maxpb = st.maxpb := by
  induction fuel with
  | zero => intro prev ch st; simp [skipBlockLoop]
  | succ fuel ih =>
    intro prev ch st
    cases ch with
    | none => simp [skipBlockLoop]
    | some c =>
      by_cases hc : (prev = some '*' && c = '/') = true
      · simp [skipBlockLoop, hc]
      · simp only [skipBlockLoop, hc, Bool.false_eq_true, if_false]
        exact ⟨le_trans (ih _ _ _).1 (read_char_pb_le st),
          by rw [(ih _ _ _).2, read_char_maxpb]⟩

theorem runLoop_pb (p : Char → Bool) (fuel : Nat) : ∀ (buf : List Char) (c : Option Char)
    (st : St),
    (runLoop p fuel buf c st).2.2.pbcount ≤ st.pbcount ∧
    (runLoop p fuel buf c st).2.2.maxpb = st.maxpb := by
  induction fuel with
  | zero => intro buf c st; simp [runLoop]
  | succ fuel ih =>
    intro buf c st
    cases c with
    | none => simp [runLoop]
    | some ch =>
      by_cases hp : p ch = true
      · simp only [runLoop, hp, if_true]
        exact ⟨le_trans (ih _ _ _).1 (read_char_pb_le st),
          by rw [(ih _ _ _).2, read_char_maxpb]⟩
      · simp [runLoop, hp]

theorem strLoop_pb (fuel : Nat) : ∀ (buf : List Char) (c : Option Char) (st : St),
    (strLoop fuel buf c st).2.2.pbcount ≤ st.pbcount ∧
    (strLoop fuel buf c st).2.2.maxpb = st.maxpb := by
  induction fuel with
  | zero => intro buf c st; simp [strLoop]
  | succ fuel ih =>
    intro buf c st
    cases c with
    | none => simp [strLoop]
    | some ch =>
      by_cases hq : ch = '"'
      · simp [strLoop, hq]
      · by_cases hn : ch = '\n'
        · simp [strLoop, hq, hn]
        · by_cases hb : ch = '\\'
          · rcases hr : (read_char st).1 with _ | ch2
            · simp only [strLoop, if_neg hq, if_neg hn, if_pos hb, hr]
              exact ⟨read_char_pb_le st, read_char_maxpb st⟩
            · simp only [strLoop, if_neg hq, if_neg hn, if_pos hb, hr]
              refine ⟨le_trans (le_trans (ih _ _ _).1 (read_char_pb_le (read_char st).2))
                (read_char_pb_le st), ?_⟩
              rw [(ih _ _ _).2, read_char_maxpb, read_char_maxpb]
          · simp only [strLoop, if_neg hq, if_neg hn, if_neg hb]
            exact ⟨le_trans (ih _ _ _).1 (read_char_pb_le st),
              by rw [(ih _ _ _).2, read_char_maxpb]⟩

theorem skipWsLoop_pb (fuel : Nat) : ∀ st : St, st.pbcount ≤ 1 →
    (skipWsLoop fuel st).pbcount ≤ 2 ∧
    (skipWsLoop fuel st).maxpb ≤ max st.maxpb 2 ∧
    ((skipWsLoop fuel st).pbcount = 2 →
      (skipWsLoop fuel st).stream.head? = some '/') := by
  induction fuel with
  | zero =>
    intro st h
    simp only [skipWsLoop]
    exact ⟨by omega, le_max_left _ _, fun h2 => absurd h2 (by omega)⟩
  | succ fuel ih =>
    intro st h
    have hP1 : ∀ ch, (read_char st).1 = some ch → (read_char st).2.pbcount = 0 := by
      intro ch hc
      rw [read_char_some_pb hc]
      omega
    have hr2pb := skipSpacesLoop_pb (effLen (read_char st).2 + 2) (read_char st).1
      (read_char st).2
    have hr2some := skipSpacesLoop_some_pb (effLen (read_char st).2 + 2) (read_char st).1
      (read_char st).2 hP1
    have hr2max : (skipSpacesLoop (effLen (read_char st).2 + 2) (read_char st).1
        (read_char st).2).2.maxpb = st.maxpb := by
      rw [hr2pb.2, read_char_maxpb]
    have hr2le : (skipSpacesLoop (effLen (read_char st).2 + 2) (read_char st).1
        (read_char st).2).2.pbcount ≤ st.pbcount :=
      le_trans hr2pb.1 (read_char_pb_le st)
    set r2 := skipSpacesLoop (effLen (read_char st).2 + 2) (read_char st).1 (read_char st).2
      with hr2def
    by_cases hsl : r2.1 = some '/'
    · have hpb2 : r2.2.pbcount = 0 := hr2some '/' hsl
      by_cases hc1 : (read_char r2.2).1 = some '/'
      · simp only [skipWsLoop, ← hr2def, hsl, hc1, if_pos, if_true]
        have h4pb : (skipLineLoop (effLen (read_char (read_char r2.2).2).2 + 2)
            (read_char (read_char r2.2).2).1 (read_char (read_char r2.2).2).2).pbcount ≤ 1 := by
          refine le_trans (skipLineLoop_pb _ _ _).1 ?_
          refine le_trans (read_char_pb_le _) ?_
          rw [read_char_some_pb hc1, hpb2]
          omega
        have h4max : (skipLineLoop (effLen (read_char (read_char r2.2).2).2 + 2)
            (read_char (read_char r2.2).2).1 (read_char (read_char r2.2).2).2).maxpb
              = st.maxpb := by
          rw [(skipLineLoop_pb _ _ _).2, read_char_maxpb, read_char_maxpb, hr2max]
        obtain ⟨ha, hb, hc⟩ := ih _ h4pb
        exact ⟨ha, le_trans hb (by rw [h4max]), hc⟩
      · by_cases hc2 : (read_char r2.2).1 = some '*'
        · simp only [skipWsLoop, ← hr2def, hsl, hc1, hc2, if_pos, if_neg, if_false, if_true]
          have h4pb : (skipBlockLoop (effLen (read_char (read_char r2.2).2).2 + 2) none
              (read_char (read_char r2.2).2).1 (read_char (read_char r2.2).2).2).pbcount
                ≤ 1 := by
            refine le_trans (skipBlockLoop_pb _ _ _ _).1 ?_
            refine le_trans (read_char_pb_le _) ?_
            rw [read_char_some_pb hc2, hpb2]
            omega
          have h4max : (skipBlockLoop (effLen (read_char (read_char r2.2).2).2 + 2) none
              (read_char (read_char r2.2).2).1 (read_char (read_char r2.2).2).2).maxpb
                = st.maxpb := by
            rw [(skipBlockLoop_pb _ _ _ _).2, read_char_maxpb, read_char_maxpb, hr2max]
          obtain ⟨ha, hb, hc⟩ := ih _ h4pb
          exact ⟨ha, le_trans hb (by rw [h4max]), hc⟩
        · simp only [skipWsLoop, ← hr2def, hsl, hc1, hc2, if_neg, if_false, if_true]
          have h3pb : (read_char r2.2).2.pbcount ≤ 0 := by
            rw [← hpb2]
            exact read_char_pb_le r2.2
          have h3max : (read_char r2.2).2.maxpb = st.maxpb := by
            rw [read_char_maxpb, hr2max]
          cases hr3 : (read_char r2.2).1 with
          | none =>
            rw [unread_char_none]
            refine ⟨by rw [unread_char_some_pb]; omega, ?_, fun _ => ?_⟩
            · rw [unread_char_some_maxpb, h3max]
              have : (read_char r2.2).2.pbcount + 1 ≤ 2 := by omega
              omega
            · rw [unread_char_stream]
              rfl
          | some c3 =>
            refine ⟨?_, ?_, fun _ => ?_⟩
            · rw [unread_char_some_pb, unread_char_some_pb]
              omega
            · rw [unread_char_some_maxpb, unread_char_some_maxpb, unread_char_some_pb,
                h3max]
              omega
            · rw [unread_char_stream]
              rfl
    · simp only [skipWsLoop, ← hr2def, hsl, if_neg, if_false]
      cases hr2c : r2.1 with
      | none =>
        rw [unread_char_none]
        refine ⟨by omega, by rw [hr2max]; exact le_max_left _ _, fun h2 => ?_⟩
        exact absurd h2 (by omega)
      | some c2 =>
        have hpb2 : r2.2.pbcount = 0 := hr2some c2 hr2c
        refine ⟨by rw [unread_char_some_pb]; omega, ?_, fun h2 => ?_⟩
        · rw [unread_char_some_maxpb, hpb2, hr2max]
          omega
        · rw [unread_char_some_pb, hpb2] at h2
          omega

theorem skip_ws_pb {st : St} (h : st.pbcount ≤ 1) :
    (skip_whitespace_and_comments st).pbcount ≤ 2 ∧
    (skip_whitespace_and_comments st).maxpb ≤ max st.maxpb 2 ∧
    ((skip_whitespace_and_comments st).pbcount = 2 →
      (skip_whitespace_and_comments st).stream.head? = some '/') :=
  skipWsLoop_pb _ st h

theorem runLoop_some_pb (p : Char → Bool) (fuel : Nat) :
    ∀ (buf : List Char) (c : Option Char) (st : St),
      (∀ ch, c = some ch → st.pbcount = 0) →
      ∀ ch, (runLoop p fuel buf c st).2.1 = some ch →
        (runLoop p fuel buf c st).2.2.pbcount = 0 := by
  induction fuel with
  | zero =>
    intro buf c st hP ch h
    simp only [runLoop] at h ⊢
    exact hP ch h
  | succ fuel ih =>
    intro buf c st hP ch h
    cases c with
    | none => simp [runLoop] at h
    | some c0 =>
      by_cases hp : p c0 = true
      · simp only [runLoop, hp, if_true] at h ⊢
        refine ih _ _ _ ?_ ch h
        intro ch2 h2
        rw [read_char_some_pb h2, hP c0 rfl]
      · simp only [runLoop, hp, Bool.false_eq_true, if_false] at h ⊢
        exact hP c0 rfl

theorem read_identifier_state (st : St) :
    (read_identifier_or_keyword st).2 =
      unread_char (runLoop idChar (effLen (read_char st).2 + 2) [] (read_char st).1
          (read_char st).2).2.1
        (runLoop idChar (effLen (read_char st).2 + 2) [] (read_char st).1
          (read_char st).2).2.2 := by
  simp only [read_identifier_or_keyword]
  split_ifs <;> rfl

theorem read_identifier_pb {st : St} (h : st.pbcount ≤ 1) :
    (read_identifier_or_keyword st).2.pbcount ≤ 1 ∧
    (read_identifier_or_keyword st).2.maxpb ≤ max st.maxpb 2 := by
  rw [read_identifier_state]
  have hrl := runLoop_pb idChar (effLen (read_char st).2 + 2) [] (read_char st).1
    (read_char st).2
  have hmaxL : (runLoop idChar (effLen (read_char st).2 + 2) [] (read_char st).1
      (read_char st).2).2.2.maxpb = st.maxpb := by
    rw [hrl.2, read_char_maxpb]
  have hpbL : (runLoop idChar (effLen (read_char st).2 + 2) [] (read_char st).1
      (read_char st).2).2.2.pbcount ≤ st.pbcount :=
    le_trans hrl.1 (read_char_pb_le st)
  have hP : ∀ ch, (read_char st).1 = some ch → (read_char st).2.pbcount = 0 := by
    intro ch hc
    rw [read_char_some_pb hc]
    omega
  have hSome := runLoop_some_pb idChar (effLen (read_char st).2 + 2) [] (read_char st).1
    (read_char st).2 hP
  cases hc' : (runLoop idChar (effLen (read_char st).2 + 2) [] (read_char st).1
      (read_char st).2).2.1 with
  | none =>
    rw [unread_char_none]
    exact ⟨le_trans hpbL h, by rw [hmaxL]; exact le_max_left _ _⟩
  | some c' =>
    have h0 : (runLoop idChar (effLen (read_char st).2 + 2) [] (read_char st).1
        (read_char st).2).2.2.pbcount = 0 := hSome c' hc'
    rw [unread_char_some_pb, unread_char_some_maxpb, h0, hmaxL]
    exact ⟨by omega, by omega⟩

theorem read_number_pb {st : St} (h : st.pbcount ≤ 1) :
    (read_number st).2.pbcount ≤ 1 ∧
    (read_number st).2.maxpb ≤ max st.maxpb 2 := by
  have hP : ∀ ch, (read_char st).1 = some ch → (read_char st).2.pbcount = 0 := by
    intro ch hc
    rw [read_char_some_pb hc]
    omega
  have hrl := runLoop_pb isdigitc (effLen (read_char st).2 + 2) [] (read_char st).1
    (read_char st).2
  have hmaxL : (runLoop isdigitc (effLen (read_char st).2 + 2) [] (read_char st).1
      (read_char st).2).2.2.maxpb = st.maxpb := by
    rw [hrl.2, read_char_maxpb]
  have hpbL : (runLoop isdigitc (effLen (read_char st).2 + 2) [] (read_char st).1
      (read_char st).2).2.2.pbcount ≤ st.pbcount :=
    le_trans hrl.1 (read_char_pb_le st)
  have hSome := runLoop_some_pb isdigitc (effLen (read_char st).2 + 2) [] (read_char st).1
    (read_char st).2 hP
  simp only [read_number]
  by_cases hdot : (runLoop isdigitc (effLen (read_char st).2 + 2) [] (read_char st).1
      (read_char st).2).2.1 = some '.'
  · rw [if_pos hdot]
    have h0 := hSome '.' hdot
    set stD := (runLoop isdigitc (effLen (read_char st).2 + 2) [] (read_char st).1
      (read_char st).2).2.2 with hstD
    have hP2 : ∀ ch, (read_char stD).1 = some ch → (read_char stD).2.pbcount = 0 := by
      intro ch hc
      rw [read_char_some_pb hc, h0]
    have hrl2pb : ∀ buf2, (runLoop isdigitc (effLen (read_char stD).2 + 2) buf2
        (read_char stD).1 (read_char stD).2).2.2.pbcount ≤ 0 := by
      intro buf2
      refine le_trans (runLoop_pb _ _ _ _ _).1 ?_
      rw [← h0]
      exact read_char_pb_le stD
    have hrl2max : ∀ buf2, (runLoop isdigitc (effLen (read_char stD).2 + 2) buf2
        (read_char stD).1 (read_char stD).2).2.2.maxpb = st.maxpb := by
      intro buf2
      rw [(runLoop_pb _ _ _ _ _).2, read_char_maxpb, hstD, hmaxL]
    cases hc2 : (runLoop isdigitc (effLen (read_char stD).2 + 2)
        (if (runLoop isdigitc (effLen (read_char st).2 + 2) [] (read_char st).1
          (read_char st).2).1.length < MAX_LEXEME_LEN - 1 then
          (runLoop isdigitc (effLen (read_char st).2 + 2) [] (read_char st).1
            (read_char st).2).1 ++ ['.']
        else (runLoop isdigitc (effLen (read_char st).2 + 2) [] (read_char st).1
          (read_char st).2).1)
        (read_char stD).1 (read_char stD).2).2.1 with
    | none =>
      rw [unread_char_none]
      exact ⟨le_trans (hrl2pb _) (by omega), by rw [hrl2max _]; exact le_max_left _ _⟩
    | some c2 =>
      rw [unread_char_some_pb, unread_char_some_maxpb, hrl2max _]
      have := hrl2pb (if (runLoop isdigitc (effLen (read_char st).2 + 2) [] (read_char st).1
          (read_char st).2).1.length < MAX_LEXEME_LEN - 1 then
          (runLoop isdigitc (effLen (read_char st).2 + 2) [] (read_char st).1
            (read_char st).2).1 ++ ['.']
        else (runLoop isdigitc (effLen (read_char st).2 + 2) [] (read_char st).1
          (read_char st).2).1)
      exact ⟨by omega, by omega⟩
  · rw [if_neg hdot]
    cases hc' : (runLoop isdigitc (effLen (read_char st).2 + 2) [] (read_char st).1
        (read_char st).2).2.1 with
    | none =>
      rw [unread_char_none]
      exact ⟨le_trans hpbL h, by rw [hmaxL]; exact le_max_left _ _⟩
    | some c' =>
      have h0 := hSome c' hc'
      rw [unread_char_some_pb, unread_char_some_maxpb, h0, hmaxL]
      exact ⟨by omega, by omega⟩

theorem read_string_pb (st : St) :
    (read_string st).2.pbcount ≤ st.pbcount ∧ (read_string st).2.maxpb = st.maxpb := by
  simp only [read_string]
  split_ifs <;>
    exact ⟨le_trans (strLoop_pb _ _ _ _).1
        (le_trans (read_char_pb_le _) (read_char_pb_le _)),
      by rw [(strLoop_pb _ _ _ _).2, read_char_maxpb, read_char_maxpb]⟩

theorem read_char_literal_pb (st : St) :
    (read_char_literal st).2.pbcount ≤ st.pbcount ∧
    (read_char_literal st).2.maxpb = st.maxpb := by
  have h2 : (read_char (read_char st).2).2.pbcount ≤ st.pbcount :=
    le_trans (read_char_pb_le _) (read_char_pb_le _)
  have h2m : (read_char (read_char st).2).2.maxpb = st.maxpb := by
    rw [read_char_maxpb, read_char_maxpb]
  have h3 : (read_char (read_char (read_char st).2).2).2.pbcount ≤ st.pbcount :=
    le_trans (read_char_pb_le _) h2
  have h3m : (read_char (read_char (read_char st).2).2).2.maxpb = st.maxpb := by
    rw [read_char_maxpb, h2m]
  have h4 : (read_char (read_char (read_char (read_char st).2).2).2).2.pbcount
      ≤ st.pbcount := le_trans (read_char_pb_le _) h3
  have h4m : (read_char (read_char (read_char (read_char st).2).2).2).2.maxpb
      = st.maxpb := by
    rw [read_char_maxpb, h3m]
  simp only [read_char_literal]
  split
  · exact ⟨h2, h2m⟩
  · rename_i c heq
    by_cases hn : c = '\n'
    · rw [if_pos hn]; exact ⟨h2, h2m⟩
    · rw [if_neg hn]
      by_cases hb : c = '\\'
      · rw [if_pos hb]
        split
        · exact ⟨h3, h3m⟩
        · rename_i c2 heq2
          by_cases hn2 : c2 = '\n'
          · rw [if_pos hn2]; exact ⟨h3, h3m⟩
          · rw [if_neg hn2]
            by_cases hq : (read_char (read_char (read_char (read_char st).2).2).2).1
                = some '\''
            · rw [if_pos hq]; exact ⟨h4, h4m⟩
            · rw [if_neg hq]; exact ⟨h4, h4m⟩
      · rw [if_neg hb]
        by_cases hq : (read_char (read_char (read_char st).2).2).1 = some '\''
        · rw [if_pos hq]; exact ⟨h3, h3m⟩
        · rw [if_neg hq]; exact ⟨h3, h3m⟩

theorem read_operator_pb {st : St} {ch : Char} {rest : List Char}
    (h : st.stream = ch :: rest) (hpb : st.pbcount ≤ 2) :
    (read_operator_or_separator st).2.pbcount ≤ 1 ∧
    (read_operator_or_separator st).2.maxpb ≤ max st.maxpb 2 := by
  have hf : (read_char st).1 = some ch := by rw [read_char_fst, h]; rfl
  have hpb1 : (read_char st).2.pbcount = st.pbcount - 1 := read_char_some_pb hf
  have hm1 : (read_char st).2.maxpb = st.maxpb := read_char_maxpb st
  simp only [read_operator_or_separator, hf]
  split_ifs with hsep hto
  · refine ⟨?_, ?_⟩
    · show (read_char st).2.pbcount ≤ 1
      omega
    · show (read_char st).2.maxpb ≤ max st.maxpb 2
      rw [hm1]
      exact le_max_left _ _
  · refine ⟨?_, ?_⟩
    · show (read_char (read_char st).2).2.pbcount ≤ 1
      have := read_char_pb_le (read_char st).2
      omega
    · show (read_char (read_char st).2).2.maxpb ≤ max st.maxpb 2
      rw [read_char_maxpb, hm1]
      exact le_max_left _ _
  · cases hr2 : (read_char (read_char st).2).1 with
    | none =>
      rw [unread_char_none]
      refine ⟨?_, ?_⟩
      · show (read_char (read_char st).2).2.pbcount ≤ 1
        have := read_char_pb_le (read_char st).2
        omega
      · show (read_char (read_char st).2).2.maxpb ≤ max st.maxpb 2
        rw [read_char_maxpb, hm1]
        exact le_max_left _ _
    | some c2 =>
      have hpb2 := read_char_some_pb hr2
      refine ⟨?_, ?_⟩
      · show (unread_char (some c2) (read_char (read_char st).2).2).pbcount ≤ 1
        rw [unread_char_some_pb, hpb2, hpb1]
        omega
      · show (unread_char (some c2) (read_char (read_char st).2).2).maxpb ≤ max st.maxpb 2
        rw [unread_char_some_maxpb, hpb2, hpb1, read_char_maxpb, hm1]
        omega
  · cases hr2 : (read_char (read_char st).2).1 with
    | none =>
      rw [unread_char_none]
      refine ⟨?_, ?_⟩
      · show (read_char (read_char st).2).2.pbcount ≤ 1
        have := read_char_pb_le (read_char st).2
        omega
      · show (read_char (read_char st).2).2.maxpb ≤ max st.maxpb 2
        rw [read_char_maxpb, hm1]
        exact le_max_left _ _
    | some c2 =>
      have hpb2 := read_char_some_pb hr2
      refine ⟨?_, ?_⟩
      · show (unread_char (some c2) (read_char (read_char st).2).2).pbcount ≤ 1
        rw [unread_char_some_pb, hpb2, hpb1]
        omega
      · show (unread_char (some c2) (read_char (read_char st).2).2).maxpb ≤ max st.maxpb 2
        rw [unread_char_some_maxpb, hpb2, hpb1, read_char_maxpb, hm1]
        omega

/-- Across one `next_token` call: if at most one character is pending on entry,
at most one is pending on exit, and the pushback high-water mark never
exceeds `max st.maxpb 2` (two pendings occur only transiently, inside the
skipper's slash restore). -/
theorem next_token_pb {st : St} (hpb : st.pbcount ≤ 1) :
    (next_token st).2.pbcount ≤ 1 ∧ (next_token st).2.maxpb ≤ max st.maxpb 2 := by
  obtain ⟨hw1, hw2, hw3⟩ := skip_ws_pb hpb
  cases hs : (skip_whitespace_and_comments st).stream with
  | nil =>
    rw [next_token_eq_empty hs]
    refine ⟨?_, hw2⟩
    show (skip_whitespace_and_comments st).pbcount ≤ 1
    by_cases h2 : (skip_whitespace_and_comments st).pbcount = 2
    · have hh := hw3 h2
      rw [hs] at hh
      simp at hh
    · omega
  | cons ch tail =>
    obtain ⟨st3, hst3, hp3, hm3, heq⟩ := next_token_eq_dispatch hs
    rw [heq]
    have hch2 : (skip_whitespace_and_comments st).pbcount = 2 → ch = '/' := by
      intro h2
      have hh := hw3 h2
      rw [hs] at hh
      simpa using hh
    have hst3pb2 : st3.pbcount ≤ 2 := by omega
    have hst3m : st3.maxpb ≤ max st.maxpb 2 := by
      rw [hm3]
      omega
    split_ifs with ha hd hq hc
    · have hst3pb : st3.pbcount ≤ 1 := by
        by_cases h2 : (skip_whitespace_and_comments st).pbcount = 2
        · have hsl := hch2 h2
          subst hsl
          exact absurd ha (by decide)
        · omega
      have hr := read_identifier_pb hst3pb
      exact ⟨hr.1, le_trans hr.2 (by omega)⟩
    · have hst3pb : st3.pbcount ≤ 1 := by
        by_cases h2 : (skip_whitespace_and_comments st).pbcount = 2
        · have hsl := hch2 h2
          subst hsl
          exact absurd hd (by decide)
        · omega
      have hr := read_number_pb hst3pb
      exact ⟨hr.1, le_trans hr.2 (by omega)⟩
    · have hst3pb : st3.pbcount ≤ 1 := by
        by_cases h2 : (skip_whitespace_and_comments st).pbcount = 2
        · have hsl := hch2 h2
          subst hsl
          exact absurd hq (by decide)
        · omega
      have hr := read_string_pb st3
      refine ⟨le_trans hr.1 hst3pb, ?_⟩
      rw [hr.2]
      exact hst3m
    · have hst3pb : st3.pbcount ≤ 1 := by
        by_cases h2 : (skip_whitespace_and_comments st).pbcount = 2
        · have hsl := hch2 h2
          subst hsl
          exact absurd hc (by decide)
        · omega
      have hr := read_char_literal_pb st3
      refine ⟨le_trans hr.1 hst3pb, ?_⟩
      rw [hr.2]
      exact hst3m
    · have hr := read_operator_pb hst3 hst3pb2
      exact ⟨hr.1, le_trans hr.2 (by omega)⟩

/-- The between-calls pushback invariant propagated through any number of
`next_token` calls. -/
theorem iterSt_pb : ∀ (n : Nat) (st : St), st.pbcount ≤ 1 → st.maxpb ≤ 2 →
    (iterSt n st).pbcount ≤ 1 ∧ (iterSt n st).maxpb ≤ 2 := by
  intro n
  induction n with
  | zero => exact fun st h1 h2 => ⟨h1, h2⟩
  | succ n ih =>
    intro st h1 h2
    have hn := next_token_pb h1
    exact ih (nextSt st) hn.1 (le_trans hn.2 (by omega))

/-- C2 (amended): after any number of `next_token` calls on a fresh scanner, at
most one character is pending in the pushback slot between calls, and the
high-water mark of pending characters over the whole run is at most two — the
depth two occurs only transiently, inside the skipper's restore of a
non-comment slash and its follower (see the separate counterexample attaining
depth two). -/
theorem pushback_depth_bounded (s : List Char) (n : Nat) :
    (iterSt n (initSt s)).pbcount ≤ 1 ∧ (iterSt n (initSt s)).maxpb ≤ 2 :=
  iterSt_pb n (initSt s) (by simp [initSt]) (by simp [initSt])


/-! ## Congruence: the stream alone determines control flow, token kinds and
lexeme texts; the position counters are passive.  Two states with equal
streams evolve with equal streams and produce tokens with equal `tkey`s. -/

theorem pending_congr {st1 st2 : St} (c : Option Char) (h : st1.stream = st2.stream) :
    pending c st1 = pending c st2 := by
  cases c <;> simp [pending, h]

theorem read_char_congr {st1 st2 : St} (h : st1.stream = st2.stream) :
    (read_char st1).1 = (read_char st2).1 ∧
    (read_char st1).2.stream = (read_char st2).2.stream :=
  ⟨by rw [read_char_fst, read_char_fst, h],
   by rw [read_char_stream, read_char_stream, h]⟩

theorem skipSpacesLoop_congr (fuel : Nat) : ∀ (c : Option Char) (st1 st2 : St),
    st1.stream = st2.stream →
    (skipSpacesLoop fuel c st1).1 = (skipSpacesLoop fuel c st2).1 ∧
    (skipSpacesLoop fuel c st1).2.stream = (skipSpacesLoop fuel c st2).2.stream := by
  induction fuel with
  | zero => intro c st1 st2 h; exact ⟨rfl, h⟩
  | succ fuel ih =>
    intro c st1 st2 h
    cases c with
    | none => simp [skipSpacesLoop, isspaceo, h]
    | some ch =>
      by_cases hs : isspacec ch
      · simp only [skipSpacesLoop, isspaceo, hs, if_true]
        obtain ⟨hf, hstr⟩ := read_char_congr h
        rw [hf]
        exact ih _ _ _ hstr
      · simp [skipSpacesLoop, isspaceo, hs, h]

theorem skipLineLoop_congr (fuel : Nat) : ∀ (ch : Option Char) (st1 st2 : St),
    st1.stream = st2.stream →
    (skipLineLoop fuel ch st1).stream = (skipLineLoop fuel ch st2).stream := by
  induction fuel with
  | zero => intro ch st1 st2 h; exact h
  | succ fuel ih =>
    intro ch st1 st2 h
    by_cases hc : ch = some '\n' ∨ ch = none
    · rcases hc with hc | hc <;> simp [skipLineLoop, hc, h]
    · push_neg at hc
      simp only [skipLineLoop, hc.1, hc.2, Bool.or_eq_true, decide_eq_true_eq, or_self,
        if_false]
      obtain ⟨hf, hstr⟩ := read_char_congr h
      rw [hf]
      exact ih _ _ _ hstr

theorem skipBlockLoop_congr (fuel : Nat) : ∀ (prev ch : Option Char) (st1 st2 : St),
    st1.stream = st2.stream →
    (skipBlockLoop fuel prev ch st1).stream = (skipBlockLoop fuel prev ch st2).stream := by
  induction fuel with
  | zero => intro prev ch st1 st2 h; exact h
  | succ fuel ih =>
    intro prev ch st1 st2 h
    cases ch with
    | none => simp [skipBlockLoop, h]
    | some c =>
      by_cases hpc : prev = some '*' ∧ c = '/'
      · simp [skipBlockLoop, hpc.1, hpc.2, h]
      · have hff : (prev = some '*' && c = '/') = false := by
          rcases Decidable.em (prev = some '*') with hp | hp
          · rcases Decidable.em (c = '/') with hcc | hcc
            · exact absurd ⟨hp, hcc⟩ hpc
            · simp [hp, hcc]
          · simp [hp]
        simp only [skipBlockLoop, hff, Bool.false_eq_true, if_false]
        obtain ⟨hf, hstr⟩ := read_char_congr h
        rw [hf]
        exact ih _ _ _ _ hstr

theorem runLoop_congr (p : Char → Bool) (fuel : Nat) : ∀ (buf : List Char)
    (c : Option Char) (st1 st2 : St), st1.stream = st2.stream →
    (runLoop p fuel buf c st1).1 = (runLoop p fuel buf c st2).1 ∧
    (runLoop p fuel buf c st1).2.1 = (runLoop p fuel buf c st2).2.1 ∧
    (runLoop p fuel buf c st1).2.2.stream = (runLoop p fuel buf c st2).2.2.stream := by
  induction fuel with
  | zero => intro buf c st1 st2 h; exact ⟨rfl, rfl, h⟩
  | succ fuel ih =>
    intro buf c st1 st2 h
    cases c with
    | none => simp [runLoop, h]
    | some ch =>
      by_cases hp : p ch = true
      · simp only [runLoop, hp, if_true]
        obtain ⟨hf, hstr⟩ := read_char_congr h
        rw [hf]
        exact ih _ _ _ _ hstr
      · simp [runLoop, hp, h]

theorem strLoop_congr (fuel : Nat) : ∀ (buf : List Char) (c : Option Char) (st1 st2 : St),
    st1.stream = st2.stream →
    (strLoop fuel buf c st1).1 = (strLoop fuel buf c st2).1 ∧
    (strLoop fuel buf c st1).2.1 = (strLoop fuel buf c st2).2.1 ∧
    (strLoop fuel buf c st1).2.2.stream = (strLoop fuel buf c st2).2.2.stream := by
  induction fuel with
  | zero => intro buf c st1 st2 h; exact ⟨rfl, rfl, h⟩
  | succ fuel ih =>
    intro buf c st1 st2 h
    cases c with
    | none => simp [strLoop, h]
    | some ch =>
      by_cases hq : ch = '"'
      · simp [strLoop, hq, h]
      · by_cases hn : ch = '\n'
        · simp [strLoop, hq, hn, h]
        · by_cases hb : ch = '\\'
          · obtain ⟨hf, hstr⟩ := read_char_congr h
            rcases h2 : (read_char st1).1 with _ | ch2
            · have h2b : (read_char st2).1 = none := by rw [← hf]; exact h2
              simp [strLoop, hq, hn, hb, h2, h2b, hstr]
            · have h2b : (read_char st2).1 = some ch2 := by rw [← hf]; exact h2
              simp only [strLoop, hq, hn, hb, h2, h2b, if_neg, if_pos, if_true, if_false]
              obtain ⟨hf2, hstr2⟩ := read_char_congr hstr
              rw [hf2]
              exact ih _ _ _ _ hstr2
          · simp only [strLoop, hq, hn, hb, if_neg, if_false]
            obtain ⟨hf, hstr⟩ := read_char_congr h
            rw [hf]
            exact ih _ _ _ _ hstr


theorem skipWsLoop_congr (fuel : Nat) : ∀ (st1 st2 : St), st1.stream = st2.stream →
    (skipWsLoop fuel st1).stream = (skipWsLoop fuel st2).stream := by
  induction fuel with
  | zero => intro st1 st2 h; exact h
  | succ fuel ih =>
    intro st1 st2 h
    obtain ⟨hf1, hs1⟩ := read_char_congr h
    have hl1 : effLen (read_char st2).2 = effLen (read_char st1).2 := by
      simp only [effLen, hs1]
    simp only [skipWsLoop]
    rw [hl1, ← hf1]
    obtain ⟨hspf, hsps⟩ := skipSpacesLoop_congr (effLen (read_char st1).2 + 2)
      (read_char st1).1 (read_char st1).2 (read_char st2).2 hs1
    rw [← hspf]
    set A := skipSpacesLoop (effLen (read_char st1).2 + 2) (read_char st1).1
      (read_char st1).2 with hA
    set B := skipSpacesLoop (effLen (read_char st1).2 + 2) (read_char st1).1
      (read_char st2).2 with hB
    by_cases hsl : A.1 = some '/'
    · rw [if_pos hsl, if_pos hsl]
      obtain ⟨hf2, hs2⟩ := read_char_congr hsps
      rw [← hf2]
      by_cases hc1 : (read_char A.2).1 = some '/'
      · rw [if_pos hc1, if_pos hc1]
        obtain ⟨hf3, hs3⟩ := read_char_congr hs2
        have hl3 : effLen (read_char (read_char B.2).2).2
            = effLen (read_char (read_char A.2).2).2 := by
          simp only [effLen, hs3]
        rw [hl3, ← hf3]
        exact ih _ _ (skipLineLoop_congr _ _ _ _ hs3)
      · rw [if_neg hc1, if_neg hc1]
        by_cases hc2 : (read_char A.2).1 = some '*'
        · rw [if_pos hc2, if_pos hc2]
          obtain ⟨hf3, hs3⟩ := read_char_congr hs2
          have hl3 : effLen (read_char (read_char B.2).2).2
              = effLen (read_char (read_char A.2).2).2 := by
            simp only [effLen, hs3]
          rw [hl3, ← hf3]
          exact ih _ _ (skipBlockLoop_congr _ _ _ _ _ hs3)
        · rw [if_neg hc2, if_neg hc2]
          rw [unread_char_stream, unread_char_stream]
          simp only [pending]
          rw [unread_char_stream, unread_char_stream, read_char_pending, hf2,
            read_char_pending, hsps]
    · rw [if_neg hsl, if_neg hsl]
      rw [unread_char_stream, unread_char_stream]
      exact pending_congr _ hsps

theorem skip_ws_congr {st1 st2 : St} (h : st1.stream = st2.stream) :
    (skip_whitespace_and_comments st1).stream
      = (skip_whitespace_and_comments st2).stream := by
  have hl : effLen st2 = effLen st1 := by simp only [effLen, h]
  simp only [skip_whitespace_and_comments]
  rw [hl]
  exact skipWsLoop_congr _ _ _ h


theorem read_identifier_congr {st1 st2 : St} (h : st1.stream = st2.stream) :
    tkey (read_identifier_or_keyword st1).1 = tkey (read_identifier_or_keyword st2).1 ∧
    (read_identifier_or_keyword st1).2.stream
      = (read_identifier_or_keyword st2).2.stream := by
  obtain ⟨hf, hs⟩ := read_char_congr h
  have hl : effLen (read_char st2).2 = effLen (read_char st1).2 := by
    simp only [effLen, hs]
  simp only [read_identifier_or_keyword]
  rw [hl, ← hf]
  obtain ⟨hb, hc, hstr⟩ := runLoop_congr idChar (effLen (read_char st1).2 + 2) []
    (read_char st1).1 (read_char st1).2 (read_char st2).2 hs
  rw [← hb, ← hc]
  set A := runLoop idChar (effLen (read_char st1).2 + 2) [] (read_char st1).1
    (read_char st1).2 with hA
  set B := runLoop idChar (effLen (read_char st1).2 + 2) [] (read_char st1).1
    (read_char st2).2 with hB
  have hgoal : (unread_char A.2.1 A.2.2).stream = (unread_char A.2.1 B.2.2).stream := by
    rw [unread_char_stream, unread_char_stream]
    exact pending_congr _ hstr
  constructor
  · split_ifs <;> simp [tkey, make_token]
  · split_ifs <;> exact hgoal

theorem read_number_congr {st1 st2 : St} (h : st1.stream = st2.stream) :
    tkey (read_number st1).1 = tkey (read_number st2).1 ∧
    (read_number st1).2.stream = (read_number st2).2.stream := by
  obtain ⟨hf, hs⟩ := read_char_congr h
  have hl : effLen (read_char st2).2 = effLen (read_char st1).2 := by
    simp only [effLen, hs]
  simp only [read_number]
  rw [hl, ← hf]
  obtain ⟨hb, hc, hstr⟩ := runLoop_congr isdigitc (effLen (read_char st1).2 + 2) []
    (read_char st1).1 (read_char st1).2 (read_char st2).2 hs
  rw [← hb, ← hc]
  set A := runLoop isdigitc (effLen (read_char st1).2 + 2) [] (read_char st1).1
    (read_char st1).2 with hA
  set B := runLoop isdigitc (effLen (read_char st1).2 + 2) [] (read_char st1).1
    (read_char st2).2 with hB
  by_cases hdot : A.2.1 = some '.'
  · rw [if_pos hdot, if_pos hdot]
    obtain ⟨hf2, hs2⟩ := read_char_congr hstr
    have hl2 : effLen (read_char B.2.2).2 = effLen (read_char A.2.2).2 := by
      simp only [effLen, hs2]
    rw [hl2, ← hf2]
    obtain ⟨hb2, hc2, hstr2⟩ := runLoop_congr isdigitc (effLen (read_char A.2.2).2 + 2)
      (if A.1.length < MAX_LEXEME_LEN - 1 then A.1 ++ ['.'] else A.1)
      (read_char A.2.2).1 (read_char A.2.2).2 (read_char B.2.2).2 hs2
    rw [← hb2, ← hc2]
    constructor
    · simp [tkey, make_token]
    · dsimp only
      rw [unread_char_stream, unread_char_stream]
      exact pending_congr _ hstr2
  · rw [if_neg hdot, if_neg hdot]
    constructor
    · simp [tkey, make_token]
    · dsimp only
      rw [unread_char_stream, unread_char_stream]
      exact pending_congr _ hstr

theorem read_string_congr {st1 st2 : St} (h : st1.stream = st2.stream) :
    tkey (read_string st1).1 = tkey (read_string st2).1 ∧
    (read_string st1).2.stream = (read_string st2).2.stream := by
  obtain ⟨hf0, hs0⟩ := read_char_congr h
  obtain ⟨hf1, hs1⟩ := read_char_congr hs0
  have hl : effLen (read_char (read_char st2).2).2
      = effLen (read_char (read_char st1).2).2 := by
    simp only [effLen, hs1]
  simp only [read_string]
  rw [hl, ← hf1]
  obtain ⟨hflag, hbuf, hstr⟩ := strLoop_congr (effLen (read_char (read_char st1).2).2 + 2)
    [] (read_char (read_char st1).2).1 (read_char (read_char st1).2).2
    (read_char (read_char st2).2).2 hs1
  rw [← hflag, ← hbuf]
  split_ifs
  · exact ⟨by simp [tkey, make_token], hstr⟩
  · exact ⟨by simp [tkey, make_token], hstr⟩

theorem read_char_literal_congr {st1 st2 : St} (h : st1.stream = st2.stream) :
    tkey (read_char_literal st1).1 = tkey (read_char_literal st2).1 ∧
    (read_char_literal st1).2.stream = (read_char_literal st2).2.stream := by
  obtain ⟨hf0, hs0⟩ := read_char_congr h
  obtain ⟨hf1, hs1⟩ := read_char_congr hs0
  obtain ⟨hf2, hs2⟩ := read_char_congr hs1
  obtain ⟨hf3, hs3⟩ := read_char_congr hs2
  simp only [read_char_literal]
  rw [← hf1, ← hf2, ← hf3]
  cases hm : (read_char (read_char st1).2).1 with
  | none => exact ⟨by simp [tkey, make_token], hs1⟩
  | some c =>
    dsimp only
    by_cases hn : c = '\n'
    · subst hn
      exact ⟨by simp [tkey, make_token], hs1⟩
    · rw [if_neg hn, if_neg hn]
      by_cases hb : c = '\\'
      · subst hb
        rw [if_pos rfl, if_pos rfl]
        cases hm2 : (read_char (read_char (read_char st1).2).2).1 with
        | none => exact ⟨by simp [tkey, make_token], hs2⟩
        | some c2 =>
          dsimp only
          by_cases hn2 : c2 = '\n'
          · subst hn2
            exact ⟨by simp [tkey, make_token], hs2⟩
          · rw [if_neg hn2, if_neg hn2]
            by_cases hq : (read_char (read_char (read_char (read_char st1).2).2).2).1
                = some '\''
            · rw [if_pos hq, if_pos hq]
              exact ⟨by simp [tkey, make_token], hs3⟩
            · rw [if_neg hq, if_neg hq]
              exact ⟨by simp [tkey, make_token], hs3⟩
      · rw [if_neg hb, if_neg hb]
        by_cases hq : (read_char (read_char (read_char st1).2).2).1 = some '\''
        · rw [if_pos hq, if_pos hq]
          exact ⟨by simp [tkey, make_token], hs2⟩
        · rw [if_neg hq, if_neg hq]
          exact ⟨by simp [tkey, make_token], hs2⟩

theorem read_operator_congr {st1 st2 : St} (h : st1.stream = st2.stream) :
    tkey (read_operator_or_separator st1).1 = tkey (read_operator_or_separator st2).1 ∧
    (read_operator_or_separator st1).2.stream
      = (read_operator_or_separator st2).2.stream := by
  obtain ⟨hf1, hs1⟩ := read_char_congr h
  obtain ⟨hf2, hs2⟩ := read_char_congr hs1
  simp only [read_operator_or_separator]
  rw [← hf1, ← hf2]
  cases hm : (read_char st1).1 with
  | none => exact ⟨by simp [tkey, make_token], hs2⟩
  | some c1 =>
    dsimp only
    by_cases hsep : is_separator_char c1 = true
    · rw [if_pos hsep, if_pos hsep]
      exact ⟨by simp [tkey, make_token], hs1⟩
    · rw [if_neg hsep, if_neg hsep]
      by_cases hto : two_ops.contains [c1, charOfOpt (read_char (read_char st1).2).1] = true
      · rw [if_pos hto, if_pos hto]
        exact ⟨by simp [tkey, make_token], hs2⟩
      · rw [if_neg hto, if_neg hto]
        have hgoal : (unread_char (read_char (read_char st1).2).1
              (read_char (read_char st1).2).2).stream
            = (unread_char (read_char (read_char st1).2).1
              (read_char (read_char st2).2).2).stream := by
          rw [unread_char_stream, unread_char_stream]
          exact pending_congr _ hs2
        by_cases hso : (single_op_chars.contains c1 || decide (c1 = '\x00')) = true
        · rw [if_pos hso, if_pos hso]
          exact ⟨by simp [tkey, make_token], hgoal⟩
        · rw [if_neg hso, if_neg hso]
          exact ⟨by simp [tkey, make_token], hgoal⟩


theorem next_token_congr {st1 st2 : St} (h : st1.stream = st2.stream) :
    tkey (next_token st1).1 = tkey (next_token st2).1 ∧
    (next_token st1).2.stream = (next_token st2).2.stream := by
  have hw := skip_ws_congr h
  cases hs : (skip_whitespace_and_comments st1).stream with
  | nil =>
    have hs2 : (skip_whitespace_and_comments st2).stream = [] := by rw [← hw]; exact hs
    rw [next_token_eq_empty hs, next_token_eq_empty hs2]
    exact ⟨by simp [tkey, make_token], hw⟩
  | cons ch tail =>
    have hs2 : (skip_whitespace_and_comments st2).stream = ch :: tail := by
      rw [← hw]; exact hs
    obtain ⟨sA, hsA, _, _, heqA⟩ := next_token_eq_dispatch hs
    obtain ⟨sB, hsB, _, _, heqB⟩ := next_token_eq_dispatch hs2
    rw [heqA, heqB]
    have hAB : sA.stream = sB.stream := by rw [hsA, hsB]
    split_ifs with h1 h2 h3 h4
    · exact read_identifier_congr hAB
    · exact read_number_congr hAB
    · exact read_string_congr hAB
    · exact read_char_literal_congr hAB
    · exact read_operator_congr hAB

theorem scanFuel_congr : ∀ (fuel : Nat) (st1 st2 : St), st1.stream = st2.stream →
    (scanFuel fuel st1).1.map tkey = (scanFuel fuel st2).1.map tkey := by
  intro fuel
  induction fuel with
  | zero => intro st1 st2 h; rfl
  | succ fuel ih =>
    intro st1 st2 h
    obtain ⟨ht, hstr⟩ := next_token_congr h
    have htype : (next_token st1).1.type = (next_token st2).1.type := by
      have hfst := congrArg Prod.fst ht
      simpa [tkey] using hfst
    by_cases he : (next_token st1).1.type = .TOK_EOF
    · have he2 : (next_token st2).1.type = .TOK_EOF := by rw [← htype]; exact he
      simp only [scanFuel]
      rw [if_pos he, if_pos he2]
      simp only [List.map_cons, List.map_nil, ht]
    · have he2 : ¬(next_token st2).1.type = .TOK_EOF := by rw [← htype]; exact he
      simp only [scanFuel]
      rw [if_neg he, if_neg he2]
      simp only [List.map_cons]
      rw [ht, ih _ _ hstr]

/-- C4 (amended): token kinds and lexeme texts are a pure function of the
input.  A second scan of the same input — whose starting `g_line`/`g_col`
(and ghost pushback counters) are whatever the first scan left behind,
since the code never resets the globals — produces exactly the same token
kinds and lexeme texts in the same order as a fresh scan; only the reported
line/column values can differ (see the separate counterexample). -/
theorem rescan_kinds_texts_agree (s : List Char) (l : Nat) (c : Int) (pc m : Nat) :
    (scanFuel (s.length + 1) ⟨s, l, c, pc, m⟩).1.map tkey
      = (scan_tokens s).map tkey := by
  simp only [scan_tokens]
  exact scanFuel_congr (s.length + 1) ⟨s, l, c, pc, m⟩ (initSt s) rfl


end Lexer